import Mathlib

/-!
Verification of the rd-logger structured logging core against its
natural-language specification.

The development shallowly embeds the TypeScript sources:

* `src/core/sensitive/sensitive-logging.ts` — the sensitive-data regular
  expressions, `containsSensitiveData`, `redactSensitiveData`;
* `src/core/utils.ts` — `safeStringify` (the `JSON.stringify` replacer pass
  with `toJSON` handling and two-space indentation) and `formatError`;
* `src/core/logger.service.ts` — `Logger.log`, `Logger.logWithSensitiveData`;
* `src/core/formatters/json.formatter.ts` — `JsonFormatter.format`;
* `src/core/request-context.ts` — `runWithRequestContext` and accessors;
* `src/core/query-logger.ts` — `QueryLogger.logQuery`.

JavaScript regular-expression matching is embedded by a small backtracking
engine over an atom language that is exactly expressive enough for the ten
patterns in `SENSITIVE_PATTERNS`; ordered alternation, greedy quantification
over character classes, optional groups and word boundaries follow the
ECMAScript leftmost-match, first-success semantics.  Machine numbers are
modelled as `Int` (every duration and time in the claims is integral), and
JavaScript values reachable from log contexts are modelled by the mutual
inductive `JsValue`/`JsList`/`JsFields` below.  Object identity (needed only
for the circular-reference guard of `safeStringify`, which is unreachable on
tree-shaped data) is outside the model.
-/

namespace RdLogger

/-! ### Character-list utilities -/

/-- `chStarts n h` holds when the list `n` is an initial segment of `h`. -/
def chStarts : List Char → List Char → Bool
  | [], _ => true
  | _ :: _, [] => false
  | a :: as, b :: bs => a == b && chStarts as bs

/-- `subHas n h` holds when `n` occurs contiguously inside `h`. -/
def subHas (n : List Char) : List Char → Bool
  | [] => chStarts n []
  | c :: cs => chStarts n (c :: cs) || subHas n cs

/-- String containment, as JavaScript `String.prototype.includes`. -/
def strHas (hay needle : String) : Bool := subHas needle.data hay.data

/-! ### Character classes used by `SENSITIVE_PATTERNS`

The classes mirror the ECMAScript definitions: `\d`, `\s` (WhiteSpace and
LineTerminator code points), `\w`-style word characters for `\b`. -/

def isDigitCh (c : Char) : Bool := '0' ≤ c && c ≤ '9'

def isUpperCh (c : Char) : Bool := 'A' ≤ c && c ≤ 'Z'

def isLowerCh (c : Char) : Bool := 'a' ≤ c && c ≤ 'z'

def isAlphaCh (c : Char) : Bool := isUpperCh c || isLowerCh c

def isAlnumCh (c : Char) : Bool := isAlphaCh c || isDigitCh c

/-- ECMAScript `\s`: WhiteSpace plus LineTerminator code points. -/
def jsSpaceCh (c : Char) : Bool :=
  c == ' ' || c == '\t' || c == '\n' || c == '\r' ||
  c == Char.ofNat 0x0b || c == Char.ofNat 0x0c || c == Char.ofNat 0xa0 ||
  c == Char.ofNat 0x1680 || (Char.ofNat 0x2000 ≤ c && c ≤ Char.ofNat 0x200a) ||
  c == Char.ofNat 0x2028 || c == Char.ofNat 0x2029 || c == Char.ofNat 0x202f ||
  c == Char.ofNat 0x205f || c == Char.ofNat 0x3000 || c == Char.ofNat 0xfeff

/-- ECMAScript word character, for `\b`: `[A-Za-z0-9_]`. -/
def isWordCh (c : Char) : Bool := isAlnumCh c || c == '_'

/-- The single-quote character (code point 39). -/
def sqCh : Char := Char.ofNat 39

/-- `["']`, the quote class of the credential patterns. -/
def quoteCh (c : Char) : Bool := c == '"' || c == sqCh

/-- `[:=]`, the key/value separator class. -/
def sepCh (c : Char) : Bool := c == ':' || c == '='

/-- `[-\s]`, the card/SSN separator class. -/
def dashSpaceCh (c : Char) : Bool := c == '-' || jsSpaceCh c

/-- `[^"'\s]`, the password-value class. -/
def pwdValCh (c : Char) : Bool := !(quoteCh c || jsSpaceCh c)

/-- `[a-zA-Z0-9_-]`, the JWT segment class. -/
def jwtCh (c : Char) : Bool := isAlnumCh c || c == '_' || c == '-'

/-- `[a-zA-Z0-9._%+-]`, the e-mail local-part class. -/
def emailLocalCh (c : Char) : Bool :=
  isAlnumCh c || c == '.' || c == '_' || c == '%' || c == '+' || c == '-'

/-- `[a-zA-Z0-9.-]`, the e-mail domain class. -/
def emailDomainCh (c : Char) : Bool := isAlnumCh c || c == '.' || c == '-'

/-- `[0-9A-Z]`, the AWS access-key body class. -/
def awsCh (c : Char) : Bool := isDigitCh c || isUpperCh c

/-! ### A backtracking matcher for the sensitive-data regular expressions

`RAtom` is the fragment of ECMAScript regular expressions that
`SENSITIVE_PATTERNS` uses once bounded group repetitions are unrolled and
optional character classes inside alternations are expanded to ordered
literal alternatives (which preserves the first-success order of the JS
engine).  A pattern is a sequence of atoms. -/

inductive RAtom where
  /-- A literal, matched case-insensitively when the flag is set (the `i`
      flag of the source pattern). -/
  | lit (ci : Bool) (s : List Char)
  /-- A greedy repetition of a character class: at least `mn` characters,
      at most `mx` when given. -/
  | cls (p : Char → Bool) (mn : Nat) (mx : Option Nat)
  /-- `(?:a|b|…)` — ordered alternation of literals; when `withEmpty` is set
      the group is optional (`(?:…)?`) and the empty alternative is tried
      last, as the greedy JS `?` does. -/
  | grp (ci : Bool) (alts : List (List Char)) (withEmpty : Bool)
  /-- `\b`, a word boundary. -/
  | bnd

/-- Case folding used by the `i` flag (ASCII, which covers every literal in
the patterns). -/
def foldCh (c : Char) : Char := c.toLower

/-- Strip the literal `l` (case-insensitively when `ci`) from the front of
`cs`, returning the remainder. -/
def stripLit (ci : Bool) : List Char → List Char → Option (List Char)
  | [], cs => some cs
  | _ :: _, [] => none
  | a :: as, b :: bs =>
      if (if ci then foldCh a == foldCh b else a == b) then stripLit ci as bs
      else none

/-- Length of the greedy run of class `p` at the front of `cs`, capped by
`mx` when given. -/
def runLen (p : Char → Bool) (mx : Option Nat) (cs : List Char) : Nat :=
  match mx with
  | some m => min m (cs.takeWhile p).length
  | none => (cs.takeWhile p).length

/-- The last character among the first `n` of `cs`, with `prev` as fallback:
the character preceding the current position after consuming `n` characters. -/
def prevAfter (prev : Option Char) (cs : List Char) (n : Nat) : Option Char :=
  if n = 0 then prev else (cs.take n).getLast?

/-- Word-boundary test between the previous character and the head of `cs`. -/
def atBoundary (prev : Option Char) (cs : List Char) : Bool :=
  let l := match prev with | some c => isWordCh c | none => false
  let r := match cs with | c :: _ => isWordCh c | [] => false
  l != r

/-- The matcher: `matchA fuel atoms prev cs` returns the remainder of `cs`
after the first successful way (in JS backtracking order) of matching the
whole atom sequence at the current position, `none` if there is none.
`prev` is the character just before the current position (for `\b`).
Alternatives are tried in source order and class repetitions from the
longest run downwards, exactly the ECMAScript disjunction and greedy
quantifier semantics.  The fuel bounds the recursion depth; callers pass a
bound that the search can never exhaust (see `matcherFuel`).
Backtracking is expressed by re-entering the matcher with a shrunken head
atom: a class repetition that failed at run length `n` retries with its cap
lowered to `n - 1` (the next-shorter greedy choice), and an alternation that
failed on its first alternative retries with the remaining alternatives, so
that the recursion is structural on the fuel alone and reduces in the
kernel. -/
def matchA : Nat → List RAtom → Option Char → List Char → Option (List Char)
  | 0, _, _, _ => none
  | _ + 1, [], _, cs => some cs
  | fuel + 1, .lit ci l :: rest, prev, cs =>
      match stripLit ci l cs with
      | none => none
      | some cs2 => matchA fuel rest (prevAfter prev cs l.length) cs2
  | fuel + 1, .cls p mn mx :: rest, prev, cs =>
      let n := runLen p mx cs
      if n < mn then none
      else
        match matchA fuel rest (prevAfter prev cs n) (cs.drop n) with
        | some r => some r
        | none =>
            match n with
            | 0 => none
            | m + 1 => matchA fuel (.cls p mn (some m) :: rest) prev cs
  | fuel + 1, .grp ci alts withEmpty :: rest, prev, cs =>
      match alts with
      | [] => if withEmpty then matchA fuel rest prev cs else none
      | a :: as =>
          match stripLit ci a cs with
          | some cs2 =>
              match matchA fuel rest (prevAfter prev cs a.length) cs2 with
              | some r => some r
              | none => matchA fuel (.grp ci as withEmpty :: rest) prev cs
          | none => matchA fuel (.grp ci as withEmpty :: rest) prev cs
  | fuel + 1, .bnd :: rest, prev, cs =>
      if atBoundary prev cs then matchA fuel rest prev cs else none

/-- A recursion-depth bound the matcher cannot exhaust: every recursive step
either discards an atom or shortens a run/alternative list, so the depth is
at most atoms × (input + alternatives) plus slack. -/
def matcherFuel (atoms : List RAtom) (cs : List Char) : Nat :=
  (atoms.length + 2) * (cs.length + 24)

/-- Leftmost search: try to match at each successive position, returning the
start index and matched length of the first (leftmost) match, whose extent
is the engine's first-success extent at that position. -/
def searchFrom (atoms : List RAtom) (fuel : Nat) (idx : Nat) :
    Option Char → List Char → Option (Nat × Nat)
  | prev, cs =>
      match matchA fuel atoms prev cs with
      | some r => some (idx, cs.length - r.length)
      | none =>
          match cs with
          | [] => none
          | c :: cs2 => searchFrom atoms fuel (idx + 1) (some c) cs2

/-- `RegExp.prototype.test` for a (non-global) pattern. -/
def reTest (atoms : List RAtom) (s : String) : Bool :=
  (searchFrom atoms (matcherFuel atoms s.data) 0 none s.data).isSome

/-- `String.prototype.replace` with a non-global pattern and a plain
replacement string (the replacement in the source, `[REDACTED]`, contains no
`$` directive): only the first match is replaced. -/
def reReplace (atoms : List RAtom) (s r : String) : String :=
  match searchFrom atoms (matcherFuel atoms s.data) 0 none s.data with
  | none => s
  | some (i, len) => ⟨s.data.take i ++ r.data ++ s.data.drop (i + len)⟩

/-! ### The ten `SENSITIVE_PATTERNS`, in object-literal order

Bounded group repetitions (`(?:\d{4}[-\s]?){3}`) are unrolled; keyword
alternatives containing `[_-]?` are expanded to ordered literal lists
(consume-first, matching the greedy optional class). -/

/-- `API_KEY`: `/(?:api[_-]?key|apikey|access[_-]?key|auth[_-]?key)[:=]["']?([a-zA-Z0-9]{16,})["']?/i` -/
def patApiKey : List RAtom :=
  [ .grp true
      [ "api_key".data, "api-key".data, "apikey".data, "apikey".data
      , "access_key".data, "access-key".data, "accesskey".data
      , "auth_key".data, "auth-key".data, "authkey".data ] false
  , .cls sepCh 1 (some 1), .cls quoteCh 0 (some 1)
  , .cls isAlnumCh 16 none, .cls quoteCh 0 (some 1) ]

/-- `JWT`: `/eyJ[a-zA-Z0-9_-]+\.eyJ[a-zA-Z0-9_-]+\.[a-zA-Z0-9_-]+/` -/
def patJwt : List RAtom :=
  [ .lit false "eyJ".data, .cls jwtCh 1 none, .lit false ".".data
  , .lit false "eyJ".data, .cls jwtCh 1 none, .lit false ".".data
  , .cls jwtCh 1 none ]

/-- `OAUTH_TOKEN`: `/(?:access[_-]?token|oauth[_-]?token|bearer[_-]?token)[:=]["']?([a-zA-Z0-9]{10,})["']?/i` -/
def patOauth : List RAtom :=
  [ .grp true
      [ "access_token".data, "access-token".data, "accesstoken".data
      , "oauth_token".data, "oauth-token".data, "oauthtoken".data
      , "bearer_token".data, "bearer-token".data, "bearertoken".data ] false
  , .cls sepCh 1 (some 1), .cls quoteCh 0 (some 1)
  , .cls isAlnumCh 10 none, .cls quoteCh 0 (some 1) ]

/-- `PASSWORD`: `/(?:password|passwd|pwd)[:=]["']?([^"'\s]{3,})["']?/i` -/
def patPassword : List RAtom :=
  [ .grp true [ "password".data, "passwd".data, "pwd".data ] false
  , .cls sepCh 1 (some 1), .cls quoteCh 0 (some 1)
  , .cls pwdValCh 3 none, .cls quoteCh 0 (some 1) ]

/-- `CREDIT_CARD`: `/(?:\d{4}[-\s]?){3}\d{4}/` -/
def patCreditCard : List RAtom :=
  [ .cls isDigitCh 4 (some 4), .cls dashSpaceCh 0 (some 1)
  , .cls isDigitCh 4 (some 4), .cls dashSpaceCh 0 (some 1)
  , .cls isDigitCh 4 (some 4), .cls dashSpaceCh 0 (some 1)
  , .cls isDigitCh 4 (some 4) ]

/-- `SSN`: `/\d{3}[-\s]?\d{2}[-\s]?\d{4}/` -/
def patSsn : List RAtom :=
  [ .cls isDigitCh 3 (some 3), .cls dashSpaceCh 0 (some 1)
  , .cls isDigitCh 2 (some 2), .cls dashSpaceCh 0 (some 1)
  , .cls isDigitCh 4 (some 4) ]

/-- `EMAIL`: `/[a-zA-Z0-9._%+-]+@[a-zA-Z0-9.-]+\.[a-zA-Z]{2,}/` -/
def patEmail : List RAtom :=
  [ .cls emailLocalCh 1 none, .lit false "@".data
  , .cls emailDomainCh 1 none, .lit false ".".data, .cls isAlphaCh 2 none ]

/-- `IP_ADDRESS`: `/\b(?:\d{1,3}\.){3}\d{1,3}\b/` -/
def patIp : List RAtom :=
  [ .bnd
  , .cls isDigitCh 1 (some 3), .lit false ".".data
  , .cls isDigitCh 1 (some 3), .lit false ".".data
  , .cls isDigitCh 1 (some 3), .lit false ".".data
  , .cls isDigitCh 1 (some 3), .bnd ]

/-- `AWS_ACCESS_KEY`: `/AKIA[0-9A-Z]{16}/` -/
def patAws : List RAtom :=
  [ .lit false "AKIA".data, .cls awsCh 16 (some 16) ]

/-- `PRIVATE_KEY`: `/-----BEGIN (?:RSA |DSA |EC )?PRIVATE KEY-----/` -/
def patPrivateKey : List RAtom :=
  [ .lit false "-----BEGIN ".data
  , .grp false [ "RSA ".data, "DSA ".data, "EC ".data ] true
  , .lit false "PRIVATE KEY-----".data ]

/-- `Object.values(SENSITIVE_PATTERNS)` in insertion order. -/
def sensitivePatterns : List (List RAtom) :=
  [ patApiKey, patJwt, patOauth, patPassword, patCreditCard
  , patSsn, patEmail, patIp, patAws, patPrivateKey ]

/-- `containsSensitiveData` from `sensitive-logging.ts`: some pattern tests
positive. -/
def containsSensitiveData (s : String) : Bool :=
  sensitivePatterns.any (fun p => reTest p s)

/-- `redactSensitiveData` from `sensitive-logging.ts`: each pattern, in
order, replaces its first match in the evolving string with `redactedValue`. -/
def redactSensitiveData (s : String) (redactedValue : String) : String :=
  sensitivePatterns.foldl (fun acc p => reReplace p acc redactedValue) s

/-- The default `redactedValue` of `redactSensitiveData` (and the default
placeholder of `SensitiveValue`). -/
def redactedDefault : String := "[REDACTED]"

/-! ### JavaScript values reachable from log contexts

`JsValue` models the JSON-representable values plus the `SensitiveValue`
wrapper class.  Arrays and objects are mutual inductives (rather than nested
`List`s) so that every function below is compiled by structural recursion
and reduces in the kernel.  JavaScript numbers are modelled as integers
(every number in the claims is integral); `undefined`, functions and
non-`SensitiveValue` class instances are outside the model.  An object is a
finite list of properties in the property order of the underlying JS object. -/

mutual
inductive JsValue where
  | null : JsValue
  | bool : Bool → JsValue
  | num : Int → JsValue
  | str : String → JsValue
  | arr : JsList → JsValue
  | obj : JsFields → JsValue
  /-- A `SensitiveValue` instance: the wrapped value and the redaction
      placeholder (`redactedValue`, default `[REDACTED]`). -/
  | sensitive : JsValue → String → JsValue
deriving DecidableEq
inductive JsList where
  | nil : JsList
  | cons : JsValue → JsList → JsList
deriving DecidableEq
inductive JsFields where
  | nil : JsFields
  | cons : String → JsValue → JsFields → JsFields
deriving DecidableEq
end

/-- Build a `JsList` from a Lean list. -/
def jsListOf : List JsValue → JsList
  | [] => .nil
  | v :: vs => .cons v (jsListOf vs)

/-- Build a `JsFields` from a Lean association list. -/
def jsFieldsOf : List (String × JsValue) → JsFields
  | [] => .nil
  | (k, v) :: t => .cons k v (jsFieldsOf t)

/-- The keys of an object, in property order. -/
def fieldKeys : JsFields → List String
  | .nil => []
  | .cons k _ t => k :: fieldKeys t

/-- Append two property lists. -/
def fieldsAppend : JsFields → JsFields → JsFields
  | .nil, gs => gs
  | .cons k v t, gs => .cons k v (fieldsAppend t gs)

/-- JavaScript property assignment `o[k] = v`: overwrite in place when the
key exists (keeping its position), append otherwise.  This is the semantics
of object spread for colliding keys and of `JSON.parse` for duplicate keys. -/
def jsAssign : JsFields → String → JsValue → JsFields
  | .nil, k, v => .cons k v .nil
  | .cons k0 v0 t, k, v =>
      if k0 = k then .cons k0 v t else .cons k0 v0 (jsAssign t k v)

/-- Assign every property of `src` onto `dst` in order (`{...dst, ...src}`
restricted to the source positions, i.e. `CopyDataProperties`). -/
def jsSpread : JsFields → JsFields → JsFields
  | dst, .nil => dst
  | dst, .cons k v t => jsSpread (jsAssign dst k v) t

/-- Property lookup. -/
def jsGet : JsFields → String → Option JsValue
  | .nil, _ => none
  | .cons k0 v0 t, k => if k0 = k then some v0 else jsGet t k

/-! ### `JSON.stringify` -/

/-- The opening brace, as a character. -/
def lbr : Char := Char.ofNat 123

/-- The closing brace, as a character. -/
def rbr : Char := Char.ofNat 125

/-- Lower-case hexadecimal digit. -/
def hexDigitCh (n : Nat) : Char :=
  if n < 10 then Char.ofNat ('0'.toNat + n) else Char.ofNat ('a'.toNat + (n - 10))

/-- `QuoteJSONString` escaping of one character: `"` and `\` and the named
control escapes, `\u00xx` for the remaining control characters, the
character itself otherwise.  (Lone surrogates cannot occur in a `Char`.) -/
def escapeCh (c : Char) : List Char :=
  if c == '"' then ['\\', '"']
  else if c == '\\' then ['\\', '\\']
  else if c == Char.ofNat 8 then ['\\', 'b']
  else if c == Char.ofNat 12 then ['\\', 'f']
  else if c == '\n' then ['\\', 'n']
  else if c == '\r' then ['\\', 'r']
  else if c == '\t' then ['\\', 't']
  else if c.toNat < 0x20 then
    ['\\', 'u', '0', '0', hexDigitCh (c.toNat / 16), hexDigitCh (c.toNat % 16)]
  else [c]

/-- Escape a character list. -/
def escapeChars : List Char → List Char
  | [] => []
  | c :: cs => escapeCh c ++ escapeChars cs

/-- A rendered JSON string literal: quote, escaped body, quote. -/
def renderStr (s : String) : List Char :=
  '"' :: (escapeChars s.data ++ ['"'])

/-- Decimal digits of `n`, most significant first, in front of `acc`. -/
def natChars (n : Nat) (acc : List Char) : List Char :=
  if n < 10 then Char.ofNat ('0'.toNat + n % 10) :: acc
  else natChars (n / 10) (Char.ofNat ('0'.toNat + n % 10) :: acc)
termination_by n
decreasing_by omega

/-- The decimal rendering of an integer, as JavaScript prints an integral
number. -/
def intChars (i : Int) : List Char :=
  (if i < 0 then ['-'] else []) ++ natChars i.natAbs []

/-- The characters of the JSON keyword `null`. -/
def nullChars : List Char := ['n', 'u', 'l', 'l']

/-- The characters of the JSON keyword `true`. -/
def trueChars : List Char := ['t', 'r', 'u', 'e']

/-- The characters of the JSON keyword `false`. -/
def falseChars : List Char := ['f', 'a', 'l', 's', 'e']

mutual
/-- Compact `JSON.stringify(value)` (no space argument, no replacer), with
the `toJSON` protocol applied: a `SensitiveValue` serializes as its
placeholder string.  Used by `JsonFormatter.format`. -/
def renderC : JsValue → List Char
  | .null => nullChars
  | .bool true => trueChars
  | .bool false => falseChars
  | .num n => intChars n
  | .str s => renderStr s
  | .arr es => '[' :: (renderCList es ++ [']'])
  | .obj fs => lbr :: (renderCFields fs ++ [rbr])
  | .sensitive _ ph => renderStr ph
def renderCList : JsList → List Char
  | .nil => []
  | .cons v .nil => renderC v
  | .cons v (.cons w t) => renderC v ++ ',' :: renderCList (.cons w t)
def renderCFields : JsFields → List Char
  | .nil => []
  | .cons k v .nil => renderStr k ++ ':' :: renderC v
  | .cons k v (.cons k2 v2 t) =>
      renderStr k ++ ':' :: renderC v ++ ',' :: renderCFields (.cons k2 v2 t)
end

mutual
/-- `JSON.stringify(value, _, 2)` rendering with current indentation `ind`
(two-space gap, `": "` member separator, members and elements each on their
own line), as `SerializeJSONObject`/`SerializeJSONArray` prescribe for a
non-empty gap.  The replacer is applied before this rendering (see
`redactTree`). -/
def renderI (ind : List Char) : JsValue → List Char
  | .null => nullChars
  | .bool true => trueChars
  | .bool false => falseChars
  | .num n => intChars n
  | .str s => renderStr s
  | .arr .nil => ['[', ']']
  | .arr (.cons v t) =>
      '[' :: '\n' :: (ind ++ [' ', ' ']) ++
        renderIList (ind ++ [' ', ' ']) (.cons v t) ++
        '\n' :: ind ++ [']']
  | .obj .nil => [lbr, rbr]
  | .obj (.cons k v t) =>
      lbr :: '\n' :: (ind ++ [' ', ' ']) ++
        renderIFields (ind ++ [' ', ' ']) (.cons k v t) ++
        '\n' :: ind ++ [rbr]
  | .sensitive _ ph => renderStr ph
def renderIList (ind : List Char) : JsList → List Char
  | .nil => []
  | .cons v .nil => renderI ind v
  | .cons v (.cons w t) =>
      renderI ind v ++ ',' :: '\n' :: ind ++ renderIList ind (.cons w t)
def renderIFields (ind : List Char) : JsFields → List Char
  | .nil => []
  | .cons k v .nil => renderStr k ++ ':' :: ' ' :: renderI ind v
  | .cons k v (.cons k2 v2 t) =>
      renderStr k ++ ':' :: ' ' :: renderI ind v ++
        ',' :: '\n' :: ind ++ renderIFields ind (.cons k2 v2 t)
end

/-! ### `safeStringify` from `src/core/utils.ts`

`safeStringify(obj, detectPatterns = true)` is
`JSON.stringify(obj, replacer, 2)` with a replacer that renders
`SensitiveValue` instances as their placeholder and pattern-redacts string
values.  `JSON.stringify` applies `toJSON` first — so a `SensitiveValue`
reaches the replacer already converted to its placeholder *string*, and the
replacer's pattern branch then applies to that string — and the replacer is
applied to every node from the root down, with no recursion into a value
once it has become a string.  `redactTree` is that node-wise transformation;
`safeStringify` renders the transformed tree.  The `seen`-set circularity
guard can never fire on tree-shaped data (object identities are distinct),
so it is not part of the model. -/

/-- The replacer applied to one string value (the `detectPatterns` branch
with the default `detectPatterns = true`). -/
def redactStr (s : String) : String :=
  if containsSensitiveData s then redactSensitiveData s redactedDefault else s

mutual
/-- The `toJSON`-plus-replacer pass of `safeStringify` over a whole tree. -/
def redactTree : JsValue → JsValue
  | .sensitive _ ph => .str (redactStr ph)
  | .str s => .str (redactStr s)
  | .arr es => .arr (redactTreeList es)
  | .obj fs => .obj (redactTreeFields fs)
  | v => v
def redactTreeList : JsList → JsList
  | .nil => .nil
  | .cons v t => .cons (redactTree v) (redactTreeList t)
def redactTreeFields : JsFields → JsFields
  | .nil => .nil
  | .cons k v t => .cons k (redactTree v) (redactTreeFields t)
end

/-- `safeStringify(obj)` (with its default `detectPatterns = true`). -/
def safeStringify (v : JsValue) : String :=
  ⟨renderI [] (redactTree v)⟩

/-! ### `formatError`, stack formatting, and string helpers -/

/-- Split a character list at newline characters. -/
def splitNl : List Char → List (List Char)
  | [] => [[]]
  | c :: cs =>
      if c = '\n' then [] :: splitNl cs
      else
        match splitNl cs with
        | [] => [[c]]
        | l :: ls => (c :: l) :: ls

/-- JavaScript `String.prototype.trim`: drop `\s` characters at both ends. -/
def trimJs (cs : List Char) : List Char :=
  ((cs.dropWhile jsSpaceCh).reverse.dropWhile jsSpaceCh).reverse

/-- Join character lists with newlines (`Array.prototype.join('\n')`). -/
def joinNl : List (List Char) → List Char
  | [] => []
  | [l] => l
  | l :: l2 :: ls => l ++ '\n' :: joinNl (l2 :: ls)

/-- The stack-trace post-processing in `formatError`:
`stack.split('\n').slice(1).map(line => line.trim()).join('\n')`. -/
def formatStack (stack : String) : String :=
  ⟨joinNl (((splitNl stack.data).drop 1).map trimJs)⟩

/-! ### The `Logger` dispatcher (`src/core/logger.service.ts`) -/

/-- `LogLevel`. -/
inductive Level where
  | debug | info | warn | error | fatal
deriving DecidableEq

/-- `LOG_LEVEL_PRIORITY`. -/
def priority : Level → Nat
  | .debug => 0
  | .info => 1
  | .warn => 2
  | .error => 3
  | .fatal => 4

/-- The `LoggerConfig` fields the dispatcher reads on the `log` path.  The
transport-construction fields (`prettyPrint`, `colorize`, file options, …)
only select and configure transports and are not needed by the claims. -/
structure LoggerConfig where
  level : Level
  includeStackTrace : Bool

/-- A context value: a JSON-modelled value, or an `Error` instance (with its
`message` and its `stack`, which is `undefined` or a string — the `stack`
of a thrown `Error` starts with the message line that `formatError` strips). -/
inductive CtxVal where
  | plain : JsValue → CtxVal
  | errVal : String → Option String → CtxVal
deriving DecidableEq

/-- A log context, `Record<string, any>`, in property order. -/
abbrev LogCtx := List (String × CtxVal)

/-- Context lookup (`context.error`). -/
def ctxGet : LogCtx → String → Option CtxVal
  | [], _ => none
  | (k0, v0) :: t, k => if k0 = k then some v0 else ctxGet t k

/-- Property assignment on a context (spread-with-collision semantics,
like `jsAssign`). -/
def ctxAssign : LogCtx → String → CtxVal → LogCtx
  | [], k, v => [(k, v)]
  | (k0, v0) :: t, k, v =>
      if k0 = k then (k0, v) :: t else (k0, v0) :: ctxAssign t k v

/-- `delete processedContext.error`. -/
def ctxDelete : LogCtx → String → LogCtx
  | [], _ => []
  | (k0, v0) :: t, k => if k0 = k then ctxDelete t k else (k0, v0) :: ctxDelete t k

/-- JavaScript truthiness of the value `this.config`: an object is always
truthy.  `Logger.log` passes `this.config` — an object — as the second,
*boolean* parameter `includeStackTrace` of `formatError` (`utils.ts`
declares `formatError(error, includeStackTrace = true)`), so the condition
`includeStackTrace && error.stack` sees a truthy left operand regardless of
the `includeStackTrace` configuration flag. -/
def configTruthy (_cfg : LoggerConfig) : Bool := true

/-- `formatError(error, includeStackTrace)` from `utils.ts`, returning the
properties spread onto the processed context.  `error.stack` is truthy
exactly when it is present and non-empty. -/
def formatErrorFields (message : String) (stack : Option String)
    (includeStackTrace : Bool) : List (String × CtxVal) :=
  (("message", .plain (.str message))) ::
    (match stack with
     | some s =>
         if includeStackTrace && s ≠ "" then
           [("stack", .plain (.str (formatStack s)))]
         else []
     | none => [])

/-- Spread a property list onto a context in order. -/
def ctxSpread : LogCtx → List (String × CtxVal) → LogCtx
  | dst, [] => dst
  | dst, (k, v) :: t => ctxSpread (ctxAssign dst k v) t

/-- The context processing of `Logger.log`: when `context.error` is an
`Error` instance, spread `formatError(context.error, this.config)` over a
copy of the context and delete the `error` key; otherwise the context is
passed through unchanged. -/
def processContext (cfg : LoggerConfig) (ctx : LogCtx) : LogCtx :=
  match ctxGet ctx "error" with
  | some (.errVal m st) =>
      ctxDelete (ctxSpread ctx (formatErrorFields m st (configTruthy cfg))) "error"
  | _ => ctx

/-- One transport invocation `transport.log(level, message, timestamp,
processedContext)`. -/
structure Emission where
  transport : String
  level : Level
  message : String
  timestamp : String
  ctx : LogCtx
deriving DecidableEq

/-- `Logger.log(level, message, context)`: the level gate, then the context
processing, then the fan-out to the registered transports in order.  The
timestamp (`new Date().toISOString()`) is a parameter of the embedding.
Returns the transport invocations the call performs. -/
def loggerLog (cfg : LoggerConfig) (transports : List String) (level : Level)
    (message : String) (ctx : LogCtx) (ts : String) : List Emission :=
  if priority level < priority cfg.level then []
  else
    transports.map (fun t =>
      { transport := t, level := level, message := message, timestamp := ts
      , ctx := processContext cfg ctx })

/-! ### `Logger.logWithSensitiveData` -/

/-- `SensitiveLoggingApproval`: `reason` and `approvedBy` are strings (the
falsy string is the empty one), `expiresAt` an optional `Date`, modelled by
its millisecond value.  A present `Date` object is truthy whatever its
value. -/
structure Approval where
  reason : String
  approvedBy : String
  expiresAt : Option Int
deriving DecidableEq

/-- The message prefix of the sensitive path. -/
def sensitivePrefix : String := "⚠️ SENSITIVE DATA ⚠️ "

/-- `!approval.reason || !approval.approvedBy`. -/
def approvalMissing (ap : Approval) : Bool :=
  ap.reason = "" || ap.approvedBy = ""

/-- `approval.expiresAt && new Date() > approval.expiresAt` — the strict
`Date` comparison of the expiry check, at current time `now`. -/
def approvalExpired (now : Int) (ap : Approval) : Bool :=
  match ap.expiresAt with
  | some t => now > t
  | none => false

/-- The `__sensitive_data_approval__` metadata object.  `iso` stands for
`Date.prototype.toISOString` (uninterpreted in the model); an `undefined`
`expiresAt` property is omitted, as every later serialization of the
context drops it. -/
def approvalMeta (iso : Int → String) (now : Int) (ap : Approval) : JsFields :=
  jsFieldsOf
    ([ ("reason", .str ap.reason)
     , ("approvedBy", .str ap.approvedBy)
     , ("approvedAt", .str (iso now)) ] ++
     (match ap.expiresAt with
      | some t => [("expiresAt", JsValue.str (iso t))]
      | none => []))

/-- The entry `logWithSensitiveData` hands to `this.log`/`this.warn`: the
branching of the method body, before the level gate of `log`.  Returns the
level, message and context of the one dispatched entry. -/
def sensitiveDispatch (iso : Int → String) (now : Int) (level : Level)
    (message : String) (data : LogCtx) (ap : Approval) :
    Level × String × LogCtx :=
  if approvalMissing ap then
    (.warn, "Attempted to log sensitive data without proper approval",
     [("message", .plain (.str
        "Missing required approval information. Sensitive data will not be logged."))])
  else if approvalExpired now ap then
    (.warn, "Attempted to log sensitive data with expired approval",
     [ ("message", .plain (.str
          "Approval has expired. Sensitive data will not be logged."))
     , ("expiredAt", .plain (.str
          (match ap.expiresAt with | some t => iso t | none => "")))])
  else
    (level, sensitivePrefix ++ message,
     ctxAssign data "__sensitive_data_approval__"
       (.plain (.obj (approvalMeta iso now ap))))

/-- `Logger.logWithSensitiveData` end to end: the dispatched entry goes
through `Logger.log`, including its level gate. -/
def logWithSensitiveData (cfg : LoggerConfig) (transports : List String)
    (iso : Int → String) (now : Int) (level : Level) (message : String)
    (data : LogCtx) (ap : Approval) (ts : String) : List Emission :=
  match sensitiveDispatch iso now level message data ap with
  | (l, m, c) => loggerLog cfg transports l m c ts

/-! ### Request context (`src/core/request-context.ts`)

`AsyncLocalStorage` scoping is modelled by the ambient store being an
explicit value: inside `runWithRequestContext` the callback sees the store
the call creates; outside any scope the ambient store is `none`. -/

/-- `RequestStore`. -/
structure RequestStore where
  requestId : String
  requestStartTime : Int
deriving DecidableEq

/-- JavaScript `a || b` on a possibly-absent string `a`: the fallback is
used when `a` is `undefined`/`null` or the (falsy) empty string. -/
def jsOrStr (a : Option String) (b : String) : String :=
  match a with
  | some s => if s = "" then b else s
  | none => b

/-- `runWithRequestContext(fn, existingRequestId?)`: builds the store
`{requestId: existingRequestId || randomUUID(), requestStartTime: Date.now()}`
and runs `fn` with it as the ambient store.  `genId` stands for the
`randomUUID()` draw and `now` for `Date.now()`. -/
def runWithRequestContext {α : Type} (fn : Option RequestStore → α)
    (existingRequestId : Option String) (genId : String) (now : Int) : α :=
  fn (some { requestId := jsOrStr existingRequestId genId
           , requestStartTime := now })

/-- `getRequestStore()`, reading the ambient store. -/
def getRequestStore (env : Option RequestStore) : Option RequestStore := env

/-- `getCurrentRequestId()`: `getRequestStore()?.requestId || 'unknown'`. -/
def getCurrentRequestId (env : Option RequestStore) : String :=
  jsOrStr ((getRequestStore env).map RequestStore.requestId) "unknown"

/-! ### Query logger (`src/core/query-logger.ts`) -/

/-- `QueryLoggerConfig`. -/
structure QueryLoggerConfig where
  enabled : Bool
  slowQueryThreshold : Int
  maxLogs : Nat
  logDebugQueries : Bool
deriving DecidableEq

/-- `QueryLogEntry`. -/
structure QueryLogEntry where
  query : String
  params : Option (List JsValue)
  duration : Int
  timestamp : String
  database : Option String
  requestId : Option String
deriving DecidableEq

/-- One `logQuery` call's data. -/
structure QueryCall where
  query : String
  params : Option (List JsValue)
  duration : Int
  database : Option String
  requestId : Option String
  timestamp : String
deriving DecidableEq

/-- The stored entry a call appends. -/
def entryOf (c : QueryCall) : QueryLogEntry :=
  { query := c.query, params := c.params, duration := c.duration
  , timestamp := c.timestamp, database := c.database, requestId := c.requestId }

/-- `QueryLogger.logQuery`: disabled is a complete no-op; otherwise the
entry is pushed and the oldest entry shifted off when the length exceeds
`maxLogs`, and the two independent emissions fire through the underlying
logger: `warn('Slow query detected')` iff `duration >= slowQueryThreshold`,
`debug('Database query executed')` iff `logDebugQueries`.  Returns the new
stored list and the (level, message) calls made on the logger. -/
def logQuery (cfg : QueryLoggerConfig) (logs : List QueryLogEntry)
    (c : QueryCall) : List QueryLogEntry × List (Level × String) :=
  if !cfg.enabled then (logs, [])
  else
    let pushed := logs ++ [entryOf c]
    let stored := if pushed.length > cfg.maxLogs then pushed.tail else pushed
    (stored,
      (if c.duration ≥ cfg.slowQueryThreshold then
        [(Level.warn, "Slow query detected")] else []) ++
      (if cfg.logDebugQueries then
        [(Level.debug, "Database query executed")] else []))

/-- The stored-list component of `logQuery`, for stating buffer invariants. -/
def logQueryStore (cfg : QueryLoggerConfig) (logs : List QueryLogEntry)
    (c : QueryCall) : List QueryLogEntry :=
  (logQuery cfg logs c).1

/-! ### `JsonFormatter.format` and `JSON.parse` -/

/-- The object literal `{level, message, timestamp, ...context}`: the three
fixed properties, then the context spread (colliding context keys overwrite
the value in place). -/
def mergedObject (level message timestamp : String) (ctx : JsFields) : JsFields :=
  jsSpread
    (jsFieldsOf
      [ ("level", .str level), ("message", .str message)
      , ("timestamp", .str timestamp) ])
    ctx

/-- `JsonFormatter.format(level, message, timestamp, context)` =
`JSON.stringify({level, message, timestamp, ...context})`. -/
def jsonFormat (level message timestamp : String) (ctx : JsFields) : String :=
  ⟨renderC (.obj (mergedObject level message timestamp ctx))⟩

/-! ### `JSON.parse`

A total parser for the JSON grammar restricted to the model (integral
numbers; `\uXXXX` escapes decode through `Char.ofNat`, which cannot produce
the lone surrogates that are outside `Char` anyway).  Objects are built by
assigning each member in source order (`jsSpread JsFields.nil`), which is
the later-duplicate-wins semantics of `InternalizeJSONProperty`.  Recursion
is structural on a fuel that the top-level entry point sizes to the input,
so all functions reduce in the kernel. -/

/-- JSON insignificant whitespace. -/
def jsonWs (c : Char) : Bool := c == ' ' || c == '\t' || c == '\n' || c == '\r'

/-- Skip insignificant whitespace. -/
def skipWs : List Char → List Char
  | [] => []
  | c :: cs => if jsonWs c then skipWs cs else c :: cs

/-- Value of one hexadecimal digit. -/
def hexVal (c : Char) : Option Nat :=
  if isDigitCh c then some (c.toNat - 48)
  else if 'a' ≤ c && c ≤ 'f' then some (c.toNat - 87)
  else if 'A' ≤ c && c ≤ 'F' then some (c.toNat - 55)
  else none

/-- The named single-character escapes. -/
def unescCh : Char → Option Char
  | 'n' => some '\n'
  | 't' => some '\t'
  | 'r' => some '\r'
  | 'b' => some (Char.ofNat 8)
  | 'f' => some (Char.ofNat 12)
  | '"' => some '"'
  | '\\' => some '\\'
  | '/' => some '/'
  | _ => none

/-- Parse a string body after the opening quote, up to and over the closing
quote; returns the decoded characters and the remainder. -/
def parseStrBody : List Char → Option (List Char × List Char)
  | [] => none
  | c :: cs =>
      if c = '"' then some ([], cs)
      else if c = '\\' then
        match cs with
        | [] => none
        | e :: rest =>
            if e = 'u' then
              match rest with
              | h1 :: h2 :: h3 :: h4 :: rest2 =>
                  (match hexVal h1, hexVal h2, hexVal h3, hexVal h4 with
                   | some a, some b, some d, some e2 =>
                       (match parseStrBody rest2 with
                        | some (s, r2) =>
                            some (Char.ofNat (((a * 16 + b) * 16 + d) * 16 + e2) :: s, r2)
                        | none => none)
                   | _, _, _, _ => none)
              | _ => none
            else
              match unescCh e with
              | some ch =>
                  (match parseStrBody rest with
                   | some (s, r2) => some (ch :: s, r2)
                   | none => none)
              | none => none
      else
        match parseStrBody cs with
        | some (s, r2) => some (c :: s, r2)
        | none => none

/-- Numeric value of a digit run. -/
def digitsVal (ds : List Char) : Nat :=
  ds.foldl (fun a c => a * 10 + (c.toNat - '0'.toNat)) 0

/-- Parse an integral JSON number (the numbers of the model). -/
def parseNumLit (cs : List Char) : Option (Int × List Char) :=
  match cs with
  | [] => none
  | c :: r =>
      if c = '-' then
        let ds := r.takeWhile isDigitCh
        if ds.isEmpty then none
        else some (-(digitsVal ds : Int), r.drop ds.length)
      else
        let ds := (c :: r).takeWhile isDigitCh
        if ds.isEmpty then none
        else some ((digitsVal ds : Int), (c :: r).drop ds.length)

mutual
/-- Parse one JSON value. -/
def parseVal : Nat → List Char → Option (JsValue × List Char)
  | 0, _ => none
  | fuel + 1, cs =>
      match skipWs cs with
      | 'n' :: 'u' :: 'l' :: 'l' :: r => some (.null, r)
      | 't' :: 'r' :: 'u' :: 'e' :: r => some (.bool true, r)
      | 'f' :: 'a' :: 'l' :: 's' :: 'e' :: r => some (.bool false, r)
      | '"' :: r =>
          match parseStrBody r with
          | some (s, r2) => some (.str ⟨s⟩, r2)
          | none => none
      | '[' :: r =>
          (match skipWs r with
           | ']' :: r2 => some (.arr .nil, r2)
           | r2 =>
               match parseItems fuel r2 with
               | some (es, r3) => some (.arr es, r3)
               | none => none)
      | c :: r =>
          if c = lbr then
            match skipWs r with
            | [] => none
            | d :: r2 =>
                if d = rbr then some (.obj .nil, r2)
                else
                  match parseFields fuel (d :: r2) with
                  | some (fs, r3) => some (.obj (jsSpread .nil fs), r3)
                  | none => none
          else if c == '-' || isDigitCh c then
            match parseNumLit (c :: r) with
            | some (n, r2) => some (.num n, r2)
            | none => none
          else none
      | [] => none
/-- Parse one-or-more comma-separated array elements and the closing
bracket. -/
def parseItems : Nat → List Char → Option (JsList × List Char)
  | 0, _ => none
  | fuel + 1, cs =>
      match parseVal fuel cs with
      | none => none
      | some (v, r) =>
          match skipWs r with
          | ',' :: r2 =>
              (match parseItems fuel r2 with
               | some (es, r3) => some (.cons v es, r3)
               | none => none)
          | ']' :: r2 => some (.cons v .nil, r2)
          | _ => none
/-- Parse one-or-more comma-separated object members and the closing brace,
returning the members in source order. -/
def parseFields : Nat → List Char → Option (JsFields × List Char)
  | 0, _ => none
  | fuel + 1, cs =>
      match skipWs cs with
      | '"' :: r =>
          match parseStrBody r with
          | none => none
          | some (k, r1) =>
              match skipWs r1 with
              | ':' :: r2 =>
                  (match parseVal fuel r2 with
                   | none => none
                   | some (v, r3) =>
                       match skipWs r3 with
                       | ',' :: r4 =>
                           (match parseFields fuel r4 with
                            | some (fs, r5) => some (.cons ⟨k⟩ v fs, r5)
                            | none => none)
                       | d :: r4 =>
                           if d = rbr then some (.cons ⟨k⟩ v .nil, r4) else none
                       | [] => none)
              | _ => none
      | _ => none
end

/-- `JSON.parse(s)`: parse one value, require only whitespace after it;
`none` is the thrown `SyntaxError`.  Every nested parse step consumes at
least one character first, so input length plus one is enough fuel. -/
def jsonParse (s : String) : Option JsValue :=
  match parseVal (s.data.length + 1) s.data with
  | some (v, r) => if (skipWs r).isEmpty then some v else none
  | none => none

/-! ### Well-formedness predicates used by the claims -/

/-- `k` is none of the keys of `fs`. -/
def keyAbsent (k : String) : JsFields → Bool
  | .nil => true
  | .cons k0 _ t => k0 ≠ k && keyAbsent k t

/-- The keys of an object are pairwise distinct (true of every JavaScript
object). -/
def nodupKeys : JsFields → Bool
  | .nil => true
  | .cons k _ t => keyAbsent k t && nodupKeys t

mutual
/-- A plain JSON-representable value: no `SensitiveValue` wrapper anywhere,
and every object has the pairwise-distinct keys a JavaScript object has. -/
def plainVal : JsValue → Bool
  | .null => true
  | .bool _ => true
  | .num _ => true
  | .str _ => true
  | .arr es => plainList es
  | .obj fs => nodupKeys fs && plainFields fs
  | .sensitive _ _ => false
def plainList : JsList → Bool
  | .nil => true
  | .cons v t => plainVal v && plainList t
def plainFields : JsFields → Bool
  | .nil => true
  | .cons _ v t => plainVal v && plainFields t
end

/-- A canonical array-index string (`"0"`, `"1"`, …, below `2^32 - 1`):
for such own-property keys JavaScript objects order the key before every
string key, a reordering the list model does not reproduce, so the
round-trip claim is stated away from them. -/
def isArrayIndexStr (s : String) : Bool :=
  match s.data with
  | [] => false
  | c :: cs =>
      (c :: cs).all isDigitCh &&
      (decide (cs = []) || !(c == '0')) &&
      digitsVal (c :: cs) < 4294967295

/-- Every key of the first property list is absent from the second. -/
def disjFrom : JsFields → JsFields → Bool
  | .nil, _ => true
  | .cons k _ t, dst => keyAbsent k dst && disjFrom t dst

/-- No top-level key of the context is an array-index string. -/
def noIndexKeys : JsFields → Bool
  | .nil => true
  | .cons k _ t => !isArrayIndexStr k && noIndexKeys t

mutual
/-- The tree contains a `SensitiveValue` whose placeholder is `ph`. -/
def hasSensitivePh (ph : String) : JsValue → Bool
  | .sensitive _ ph0 => ph0 == ph
  | .arr es => hasSensitivePhList ph es
  | .obj fs => hasSensitivePhFields ph fs
  | _ => false
def hasSensitivePhList (ph : String) : JsList → Bool
  | .nil => false
  | .cons v t => hasSensitivePh ph v || hasSensitivePhList ph t
def hasSensitivePhFields (ph : String) : JsFields → Bool
  | .nil => false
  | .cons _ v t => hasSensitivePh ph v || hasSensitivePhFields ph t
end

mutual
/-- The tree contains a string leaf equal to `s` (after redaction, the
placeholder of a sensitive node is such a leaf). -/
def hasStrLeaf (s : String) : JsValue → Bool
  | .str s0 => s0 == s
  | .arr es => hasStrLeafList s es
  | .obj fs => hasStrLeafFields s fs
  | _ => false
def hasStrLeafList (s : String) : JsList → Bool
  | .nil => false
  | .cons v t => hasStrLeaf s v || hasStrLeafList s t
def hasStrLeafFields (s : String) : JsFields → Bool
  | .nil => false
  | .cons _ v t => hasStrLeaf s v || hasStrLeafFields s t
end

/-- A string none of whose characters needs JSON escaping: it is rendered
literally between its quotes. -/
def escFree (s : String) : Bool :=
  s.data.all (fun c => !(c == '"' || c == '\\' || decide (c.toNat < 0x20)))

mutual
/-- Erase every wrapped sensitive value (replace it by `null`), keeping the
placeholders: two trees are "equal except for wrapped values" exactly when
their erasures coincide. -/
def eraseWrapped : JsValue → JsValue
  | .sensitive _ ph => .sensitive .null ph
  | .arr es => .arr (eraseWrappedList es)
  | .obj fs => .obj (eraseWrappedFields fs)
  | v => v
def eraseWrappedList : JsList → JsList
  | .nil => .nil
  | .cons v t => .cons (eraseWrapped v) (eraseWrappedList t)
def eraseWrappedFields : JsFields → JsFields
  | .nil => .nil
  | .cons k v t => .cons k (eraseWrapped v) (eraseWrappedFields t)
end

/-! ## Helper lemmas -/

theorem chStarts_append (n t : List Char) : chStarts n (n ++ t) = true := by
  induction n with
  | nil => rfl
  | cons c cs ih => simp [chStarts, ih]

theorem subHas_nil (l : List Char) : subHas [] l = true := by
  cases l <;> simp [subHas, chStarts]

theorem subHas_mid (pre n post : List Char) :
    subHas n (pre ++ (n ++ post)) = true := by
  induction pre with
  | nil =>
      cases n with
      | nil => simpa using subHas_nil post
      | cons c cs =>
          have h := chStarts_append (c :: cs) post
          simp only [List.nil_append, List.cons_append, subHas]
          simp only [List.cons_append] at h
          simp [h]
  | cons c cs ih =>
      simp only [List.cons_append, subHas]
      simp [ih]

theorem strHas_mid (pre post : List Char) (r : String) :
    strHas ⟨pre ++ (r.data ++ post)⟩ r = true :=
  subHas_mid pre r.data post

/-- `reReplace` either leaves the string unchanged or splices the
replacement in literally. -/
theorem reReplace_cases (p : List RAtom) (s r : String) :
    reReplace p s r = s ∨
    ∃ pre post, reReplace p s r = ⟨pre ++ (r.data ++ post)⟩ := by
  unfold reReplace
  cases h : searchFrom p (matcherFuel p s.data) 0 none s.data with
  | none => exact Or.inl rfl
  | some il =>
      right
      exact ⟨s.data.take il.1, s.data.drop (il.1 + il.2), by simp⟩

/-- When the pattern tests positive the replacement is spliced in. -/
theorem reReplace_of_test (p : List RAtom) (s r : String)
    (h : reTest p s = true) :
    ∃ pre post, reReplace p s r = ⟨pre ++ (r.data ++ post)⟩ := by
  unfold reTest at h
  unfold reReplace
  cases hs : searchFrom p (matcherFuel p s.data) 0 none s.data with
  | none => rw [hs] at h; simp [Option.isSome] at h
  | some il => exact ⟨s.data.take il.1, s.data.drop (il.1 + il.2), by simp⟩

theorem strHas_reReplace (p : List RAtom) (t r : String)
    (h : strHas t r = true) : strHas (reReplace p t r) r = true := by
  rcases reReplace_cases p t r with heq | ⟨pre, post, heq⟩
  · rwa [heq]
  · rw [heq]; exact strHas_mid pre post r

theorem redactFold_has (r : String) :
    ∀ (ps : List (List RAtom)) (s : String),
      (∃ p ∈ ps, reTest p s = true) →
      strHas (ps.foldl (fun acc p => reReplace p acc r) s) r = true := by
  intro ps
  induction ps with
  | nil => intro s h; simp at h
  | cons p t ih =>
      intro s h
      by_cases hp : reTest p s = true
      · obtain ⟨pre, post, heq⟩ := reReplace_of_test p s r hp
        have hbase : strHas (reReplace p s r) r = true := by
          rw [heq]; exact strHas_mid pre post r
        have hkeep : ∀ (qs : List (List RAtom)) (t0 : String),
            strHas t0 r = true →
            strHas (qs.foldl (fun acc q => reReplace q acc r) t0) r = true := by
          intro qs
          induction qs with
          | nil => intro t0 h0; simpa using h0
          | cons q qt ihq =>
              intro t0 h0
              simpa using ihq (reReplace q t0 r) (strHas_reReplace q t0 r h0)
        simpa using hkeep t (reReplace p s r) hbase
      · have hmem : ∃ q ∈ t, reTest q s = true := by
          rcases h with ⟨q, hq, hqt⟩
          rcases List.mem_cons.mp hq with rfl | hmem
          · exact absurd hqt hp
          · exact ⟨q, hmem, hqt⟩
        have hnone : reReplace p s r = s := by
          unfold reTest at hp
          unfold reReplace
          cases hs : searchFrom p (matcherFuel p s.data) 0 none s.data with
          | none => rfl
          | some il => rw [hs] at hp; simp [Option.isSome] at hp
        simpa [hnone] using ih s hmem

/-! ## Claim C4 — pattern redaction (corrected)

The spec says a sensitive-pattern match triggers *whole-value* replacement
with the placeholder and that none of the matching material survives.  The
source applies `String.prototype.replace` with non-global patterns: only
the first match of each pattern is replaced, so a second occurrence of the
same credential shape survives into the rendered output. -/

/-- C4 counterexample: in `"password=aaa111 password=bbb222"` only the
first `password=…` match is replaced; the value is not replaced as a whole
and the second matching credential survives verbatim. -/
theorem C4_counterexample :
    containsSensitiveData "password=aaa111 password=bbb222" = true ∧
    redactSensitiveData "password=aaa111 password=bbb222" redactedDefault
      = "[REDACTED] password=bbb222" ∧
    strHas (redactSensitiveData "password=aaa111 password=bbb222" redactedDefault)
      "password=bbb222" = true ∧
    redactSensitiveData "password=aaa111 password=bbb222" redactedDefault
      ≠ redactedDefault := by
  refine ⟨by decide, by decide, by decide, by decide⟩

/-- C4 (amended): for every string value matching one of the configured
sensitive patterns, the serialization pass replaces the *first matched
substring* of each pattern with the placeholder, so the rendered value
contains the placeholder; material of the value outside the first match of
each pattern (including later matches of the same pattern) may survive. -/
theorem C4_first_match_redaction (s : String)
    (h : containsSensitiveData s = true) :
    strHas (redactSensitiveData s redactedDefault) redactedDefault = true := by
  unfold containsSensitiveData at h
  rcases List.any_eq_true.mp h with ⟨p, hp, ht⟩
  exact redactFold_has redactedDefault sensitivePatterns s ⟨p, hp, ht⟩

/-- C4 witness: the amended theorem applied to `"password=abc123"`. -/
theorem C4_first_match_redaction_witness :
    strHas (redactSensitiveData "password=abc123" redactedDefault)
      redactedDefault = true :=
  C4_first_match_redaction "password=abc123" (by decide)

/-! ## Claim C2 — the level gate of `Logger.log` (confirmed) -/

/-- C2: `Logger.log` invokes each registered transport exactly once iff the
priority of the call level is at least the configured minimum priority, and
performs nothing at all otherwise; a `level: 'warn'` logger running
`.info('x')` then `.warn('y')` produces exactly one invocation, for `y`. -/
theorem C2_level_gate :
    (∀ (cfg : LoggerConfig) (transports : List String) (level : Level)
       (msg : String) (ctx : LogCtx) (ts : String),
       (priority cfg.level ≤ priority level →
          loggerLog cfg transports level msg ctx ts
            = transports.map (fun t =>
                { transport := t, level := level, message := msg
                , timestamp := ts, ctx := processContext cfg ctx })) ∧
       (priority level < priority cfg.level →
          loggerLog cfg transports level msg ctx ts = [])) ∧
    loggerLog ⟨Level.warn, true⟩ ["console"] .info "x" [] "t1" ++
      loggerLog ⟨Level.warn, true⟩ ["console"] .warn "y" [] "t2"
      = [{ transport := "console", level := .warn, message := "y"
         , timestamp := "t2", ctx := [] }] := by
  refine ⟨fun cfg transports level msg ctx ts => ⟨fun hle => ?_, fun hlt => ?_⟩, by decide⟩
  · unfold loggerLog
    rw [if_neg (by omega)]
  · unfold loggerLog
    rw [if_pos hlt]

/-- C2 witness: the gate evaluated at a concrete suppressed call and a
concrete emitted call. -/
theorem C2_level_gate_witness :
    loggerLog ⟨Level.warn, true⟩ ["console"] .info "x" [] "t" = [] ∧
    loggerLog ⟨Level.info, true⟩ ["console"] .info "x" [] "t"
      = [{ transport := "console", level := .info, message := "x"
         , timestamp := "t", ctx := [] }] := by
  have h := C2_level_gate
  refine ⟨(h.1 ⟨Level.warn, true⟩ ["console"] .info "x" [] "t").2 (by decide), ?_⟩
  have h2 := (h.1 ⟨Level.info, true⟩ ["console"] .info "x" [] "t").1 (by decide)
  simpa using h2

/-! ## Claim C3 — the sensitive-data approval gate (corrected)

The spec requires `expiresAt` to be *strictly in the future*; the source
rejects only when `new Date() > approval.expiresAt`, so an approval whose
`expiresAt` equals the current instant still proceeds. -/

/-- C3 counterexample: with non-empty `reason`/`approvedBy` and
`expiresAt` equal to the current time — not strictly in the future — the
entry is forwarded at the requested level with the sensitive payload in its
context, rather than replaced by a warning-level audit entry. -/
theorem C3_counterexample :
    (sensitiveDispatch (fun _ => "") 0 .info "m"
        [("pin", .plain (.str "1234"))] ⟨"r", "a", some 0⟩).1 = Level.info ∧
    (sensitiveDispatch (fun _ => "") 0 .info "m"
        [("pin", .plain (.str "1234"))] ⟨"r", "a", some 0⟩).2.1
      = sensitivePrefix ++ "m" ∧
    ctxGet (sensitiveDispatch (fun _ => "") 0 .info "m"
        [("pin", .plain (.str "1234"))] ⟨"r", "a", some 0⟩).2.2 "pin"
      = some (.plain (.str "1234")) := by
  refine ⟨by decide, by decide, by decide⟩

/-- C3 (amended): `logWithSensitiveData` dispatches the requested entry —
message prefixed, approval metadata added to the context — iff `reason` and
`approvedBy` are non-empty and `expiresAt` is absent or *not in the past*
(`now ≤ expiresAt`; an approval expiring exactly now still proceeds).  In
every other case the dispatched entry is a warning-level audit entry whose
context does not depend on the sensitive payload. -/
theorem C3_approval_gate (iso : Int → String) (now : Int) (level : Level)
    (msg : String) (data : LogCtx) (ap : Approval) :
    (ap.reason ≠ "" → ap.approvedBy ≠ "" →
       (∀ t, ap.expiresAt = some t → now ≤ t) →
       sensitiveDispatch iso now level msg data ap
         = (level, sensitivePrefix ++ msg,
            ctxAssign data "__sensitive_data_approval__"
              (.plain (.obj (approvalMeta iso now ap))))) ∧
    ((ap.reason = "" ∨ ap.approvedBy = "" ∨
        (∃ t, ap.expiresAt = some t ∧ now > t)) →
       (sensitiveDispatch iso now level msg data ap).1 = Level.warn ∧
       (sensitiveDispatch iso now level msg data ap).2.2
         = (sensitiveDispatch iso now level msg [] ap).2.2) := by
  constructor
  · intro hr ha hexp
    have hm : approvalMissing ap = false := by
      unfold approvalMissing
      simp [hr, ha]
    have he : approvalExpired now ap = false := by
      unfold approvalExpired
      cases hx : ap.expiresAt with
      | none => rfl
      | some t =>
          have := hexp t hx
          simp
          omega
    unfold sensitiveDispatch
    simp [hm, he]
  · intro hbad
    by_cases hm : approvalMissing ap = true
    · unfold sensitiveDispatch
      simp [hm]
    · have hm2 : approvalMissing ap = false := by simpa using hm
      have hexp : approvalExpired now ap = true := by
        unfold approvalMissing at hm2
        rcases hbad with h | h | ⟨t, ht, hlt⟩
        · simp [h] at hm2
        · simp [h] at hm2
        · simp [approvalExpired, ht]
          omega
      unfold sensitiveDispatch
      simp [hm2, hexp]

/-- C3 witness: the amended gate applied at a valid approval and at an
expired one. -/
theorem C3_approval_gate_witness :
    sensitiveDispatch (fun _ => "") 5 .info "m" [] ⟨"why", "who", some 9⟩
      = (.info, sensitivePrefix ++ "m",
         ctxAssign [] "__sensitive_data_approval__"
           (.plain (.obj (approvalMeta (fun _ => "") 5 ⟨"why", "who", some 9⟩)))) ∧
    (sensitiveDispatch (fun _ => "") 5 .info "m"
        [("pin", .plain (.str "1234"))] ⟨"why", "who", some 4⟩).1 = Level.warn := by
  constructor
  · exact (C3_approval_gate (fun _ => "") 5 .info "m" [] ⟨"why", "who", some 9⟩).1
      (by decide) (by decide) (by intro t ht; cases ht; omega)
  · exact ((C3_approval_gate (fun _ => "") 5 .info "m"
      [("pin", .plain (.str "1234"))] ⟨"why", "who", some 4⟩).2
      (Or.inr (Or.inr ⟨4, rfl, by omega⟩))).1

/-! ## Claim C5 — error formatting in `Logger.log` (code bug)

`Logger.log` calls `formatError(context.error, this.config)`, but the
`formatError` of `utils.ts` declares `formatError(error, includeStackTrace
= true)`: the configuration *object* is passed where a boolean is expected.
An object is truthy, so `includeStackTrace && error.stack` includes the
stack whenever the error has one — the `includeStackTrace: false`
configuration is ignored (the changelog records the fix `correct
formatError parameter type`).  Additionally only the entry under the key
`error` is examined at all: an `Error` under any other key reaches the
transports unchanged. -/

/-- C5 evaluation at the failing input: a logger configured with
`includeStackTrace: false` still emits the formatted stack, and an `Error`
stored under a key other than `error` is handed to the transport as-is. -/
theorem C5_stack_ignored :
    loggerLog ⟨Level.debug, false⟩ ["console"] .error "failed"
      [ ("error", .errVal "boom" (some "Error: boom\n    at f (a.ts:1:1)"))
      , ("cause", .errVal "inner" none) ] "ts"
    = [{ transport := "console", level := .error, message := "failed"
       , timestamp := "ts"
       , ctx := [ ("cause", .errVal "inner" none)
                , ("message", .plain (.str "boom"))
                , ("stack", .plain (.str "at f (a.ts:1:1)")) ] }] := by
  decide

/-! ## Claim C6 — request-context establishment (corrected)

The source seeds the store with `existingRequestId || randomUUID()`: the
`||` operator treats the *empty* string as absent (the spec writes `??`),
so a supplied empty identifier is replaced by a generated one. -/

/-- C6 counterexample: a supplied (present) empty identifier does not
become the store id — the generated id is used instead. -/
theorem C6_counterexample :
    runWithRequestContext (fun e => e) (some "") "generated-uuid" 7
      = some { requestId := "generated-uuid", requestStartTime := 7 } ∧
    "generated-uuid" ≠ "" := by
  exact ⟨rfl, by decide⟩

/-- C6 (amended): `runWithRequestContext(fn, existingId)` runs `fn` with a
store whose id is `existingId` when it is present *and non-empty*, and a
freshly generated id otherwise (absent, `null`, or the falsy empty string),
with `startTime` the current time; `getStore()` outside any scope is
absent, and `getCurrentId()` outside any scope is `"unknown"`. -/
theorem C6_context_store (genId : String) (now : Int) :
    (∀ (α : Type) (fn : Option RequestStore → α) (s : String), s ≠ "" →
       runWithRequestContext fn (some s) genId now
         = fn (some { requestId := s, requestStartTime := now })) ∧
    (∀ (α : Type) (fn : Option RequestStore → α),
       runWithRequestContext fn none genId now
         = fn (some { requestId := genId, requestStartTime := now }) ∧
       runWithRequestContext fn (some "") genId now
         = fn (some { requestId := genId, requestStartTime := now })) ∧
    getRequestStore none = none ∧
    getCurrentRequestId none = "unknown" := by
  refine ⟨fun α fn s hs => ?_, fun α fn => ⟨rfl, rfl⟩, rfl, rfl⟩
  unfold runWithRequestContext jsOrStr
  simp [hs]

/-- C6 witness: the amended statement applied at a non-empty supplied id. -/
theorem C6_context_store_witness :
    runWithRequestContext (fun e => e) (some "req-42") "gen" 3
      = some { requestId := "req-42", requestStartTime := 3 } :=
  (C6_context_store "gen" 3).1 (Option RequestStore) (fun e => e) "req-42" (by decide)

/-! ## Claim C7 — the query-log ring buffer (confirmed) -/

theorem logQueryStore_disabled (cfg : QueryLoggerConfig)
    (logs : List QueryLogEntry) (c : QueryCall) (h : cfg.enabled = false) :
    logQueryStore cfg logs c = logs := by
  unfold logQueryStore logQuery
  simp [h]

/-- The stored-list component of `logQuery`, in closed form. -/
theorem logQueryStore_eq (cfg : QueryLoggerConfig)
    (logs : List QueryLogEntry) (c : QueryCall) :
    logQueryStore cfg logs c =
      if !cfg.enabled then logs
      else if (logs ++ [entryOf c]).length > cfg.maxLogs then
        (logs ++ [entryOf c]).tail
      else logs ++ [entryOf c] := by
  unfold logQueryStore logQuery
  cases hE : cfg.enabled <;> rfl

theorem logQueryStore_len (cfg : QueryLoggerConfig)
    (logs : List QueryLogEntry) (c : QueryCall) (hmax : 1 ≤ cfg.maxLogs)
    (h : logs.length ≤ cfg.maxLogs) :
    (logQueryStore cfg logs c).length ≤ cfg.maxLogs := by
  rw [logQueryStore_eq]
  by_cases he : cfg.enabled
  · rw [if_neg (by simp [he])]
    by_cases hover : (logs ++ [entryOf c]).length > cfg.maxLogs
    · rw [if_pos hover, List.length_tail]
      simp only [List.length_append, List.length_cons, List.length_nil] at hover ⊢
      omega
    · rw [if_neg hover]
      simp only [List.length_append, List.length_cons, List.length_nil] at hover ⊢
      omega
  · rw [if_pos (by simp [he])]
    exact h

/-- C7: with `maxLogs` fixed and at least 1, the stored list never exceeds
`maxLogs` entries after any sequence of `logQuery` calls from a fresh
logger; a call arriving at capacity evicts exactly the oldest entry and
keeps all newer entries in order, and a call below capacity evicts
nothing. -/
theorem C7_ring_buffer (cfg : QueryLoggerConfig) (hmax : 1 ≤ cfg.maxLogs) :
    (∀ calls : List QueryCall,
       (calls.foldl (logQueryStore cfg) []).length ≤ cfg.maxLogs) ∧
    (∀ (logs : List QueryLogEntry) (c : QueryCall), cfg.enabled = true →
       logs.length = cfg.maxLogs →
       logQueryStore cfg logs c = logs.tail ++ [entryOf c]) ∧
    (∀ (logs : List QueryLogEntry) (c : QueryCall), cfg.enabled = true →
       logs.length < cfg.maxLogs →
       logQueryStore cfg logs c = logs ++ [entryOf c]) := by
  refine ⟨fun calls => ?_, fun logs c he hlen => ?_, fun logs c he hlen => ?_⟩
  · have general : ∀ (cs : List QueryCall) (init : List QueryLogEntry),
        init.length ≤ cfg.maxLogs →
        (cs.foldl (logQueryStore cfg) init).length ≤ cfg.maxLogs := by
      intro cs
      induction cs with
      | nil => intro init h; simpa using h
      | cons c t ih =>
          intro init h
          exact ih (logQueryStore cfg init c) (logQueryStore_len cfg init c hmax h)
    exact general calls [] (by simp)
  · rw [logQueryStore_eq, if_neg (by simp [he]),
        if_pos (by simp only [List.length_append, List.length_cons, List.length_nil]; omega)]
    cases logs with
    | nil =>
        rw [List.length_nil] at hlen
        omega
    | cons a t => simp
  · rw [logQueryStore_eq, if_neg (by simp [he]),
        if_neg (by simp only [List.length_append, List.length_cons, List.length_nil]; omega)]

/-- C7 witness: the buffer facts at `maxLogs = 2` — two calls fill the
buffer, the third evicts exactly the first entry. -/
theorem C7_ring_buffer_witness :
    (([⟨"q1", none, 1, none, none, "t1"⟩, ⟨"q2", none, 2, none, none, "t2"⟩,
       ⟨"q3", none, 3, none, none, "t3"⟩] :
        List QueryCall).foldl (logQueryStore ⟨true, 100, 2, false⟩) []).length ≤ 2 ∧
    logQueryStore ⟨true, 100, 2, false⟩
      [entryOf ⟨"q1", none, 1, none, none, "t1"⟩, entryOf ⟨"q2", none, 2, none, none, "t2"⟩]
      ⟨"q3", none, 3, none, none, "t3"⟩
      = [entryOf ⟨"q2", none, 2, none, none, "t2"⟩, entryOf ⟨"q3", none, 3, none, none, "t3"⟩] := by
  constructor
  · exact (C7_ring_buffer ⟨true, 100, 2, false⟩ (by decide)).1 _
  · have h := ((C7_ring_buffer ⟨true, 100, 2, false⟩ (by decide)).2.1)
      [entryOf ⟨"q1", none, 1, none, none, "t1"⟩, entryOf ⟨"q2", none, 2, none, none, "t2"⟩]
      ⟨"q3", none, 3, none, none, "t3"⟩ rfl (by decide)
    simpa using h

/-! ## Claim C8 — `logQuery` gating (confirmed) -/

/-- C8: a disabled query logger performs nothing at all; when enabled, the
warning emission fires iff `duration ≥ slowQueryThreshold` and the debug
emission iff verbose query logging is on — independent gates — and the
spec scenario (threshold 100, verbose off) yields exactly one warning for
duration 150 and nothing for duration 50. -/
theorem C8_query_gates :
    (∀ (cfg : QueryLoggerConfig) (logs : List QueryLogEntry) (c : QueryCall),
       (cfg.enabled = false → logQuery cfg logs c = (logs, [])) ∧
       (cfg.enabled = true →
          (logQuery cfg logs c).2.count (Level.warn, "Slow query detected")
            = (if cfg.slowQueryThreshold ≤ c.duration then 1 else 0) ∧
          (logQuery cfg logs c).2.count (Level.debug, "Database query executed")
            = (if cfg.logDebugQueries then 1 else 0))) ∧
    (logQuery ⟨true, 100, 1000, false⟩ [] ⟨"q", none, 150, none, none, "t"⟩).2
      = [(Level.warn, "Slow query detected")] ∧
    (logQuery ⟨true, 100, 1000, false⟩ [] ⟨"q", none, 50, none, none, "t"⟩).2
      = [] := by
  refine ⟨fun cfg logs c => ⟨fun hd => ?_, fun he => ?_⟩, by decide, by decide⟩
  · unfold logQuery
    simp [hd]
  · unfold logQuery
    simp only [he, Bool.not_true, Bool.false_eq_true, if_false]
    constructor
    · by_cases hs : cfg.slowQueryThreshold ≤ c.duration
      · simp [hs, ge_iff_le, List.count_append]
        by_cases hv : cfg.logDebugQueries <;> simp [hv, List.count_cons, List.count_nil]
      · simp [hs, ge_iff_le, List.count_append]
        by_cases hv : cfg.logDebugQueries <;> simp [hv, List.count_cons, List.count_nil]
    · by_cases hv : cfg.logDebugQueries
      · simp [hv, List.count_append]
        by_cases hs : cfg.slowQueryThreshold ≤ c.duration <;>
          simp [hs, ge_iff_le, List.count_cons, List.count_nil]
      · simp [hv, List.count_append]
        by_cases hs : cfg.slowQueryThreshold ≤ c.duration <;>
          simp [hs, ge_iff_le, List.count_cons, List.count_nil]

/-- C8 witness: the gates applied at a disabled logger and at an enabled
logger with a slow query and verbose logging on (both emissions fire). -/
theorem C8_query_gates_witness :
    logQuery ⟨false, 100, 10, true⟩ [] ⟨"q", none, 150, none, none, "t"⟩
      = ([], []) ∧
    (logQuery ⟨true, 100, 10, true⟩ [] ⟨"q", none, 150, none, none, "t"⟩).2.count
        (Level.warn, "Slow query detected") = 1 ∧
    (logQuery ⟨true, 100, 10, true⟩ [] ⟨"q", none, 150, none, none, "t"⟩).2.count
        (Level.debug, "Database query executed") = 1 := by
  refine ⟨(C8_query_gates.1 ⟨false, 100, 10, true⟩ [] _).1 rfl, ?_, ?_⟩
  · have h := ((C8_query_gates.1 ⟨true, 100, 10, true⟩ [] ⟨"q", none, 150, none, none, "t"⟩).2 rfl).1
    simpa using h
  · have h := ((C8_query_gates.1 ⟨true, 100, 10, true⟩ [] ⟨"q", none, 150, none, none, "t"⟩).2 rfl).2
    simpa using h

/-! ## Claim C10 — the audit warning is itself level-gated (confirmed) -/

/-- C10: when the configured minimum level is stricter than `warn`
(`error` or `fatal`), a `logWithSensitiveData` call with a missing or
expired approval produces no transport invocation at all: the requested
entry is withheld by the approval gate and the audit warning by the level
gate. -/
theorem C10_audit_gated (cfg : LoggerConfig) (transports : List String)
    (iso : Int → String) (now : Int) (level : Level) (msg : String)
    (data : LogCtx) (ap : Approval) (ts : String)
    (hstrict : priority Level.warn < priority cfg.level)
    (hbad : approvalMissing ap = true ∨ approvalExpired now ap = true) :
    logWithSensitiveData cfg transports iso now level msg data ap ts = [] := by
  unfold logWithSensitiveData sensitiveDispatch
  rcases hbad with hm | he
  · simp only [hm, if_true]
    unfold loggerLog
    rw [if_pos hstrict]
  · by_cases hm : approvalMissing ap = true
    · simp only [hm, if_true]
      unfold loggerLog
      rw [if_pos hstrict]
    · have hm2 : approvalMissing ap = false := by simpa using hm
      simp only [hm2, Bool.false_eq_true, if_false, he, if_true]
      unfold loggerLog
      rw [if_pos hstrict]

/-- C10 witness: an `error`-level logger, an expired approval, one
registered transport — no output at all. -/
theorem C10_audit_gated_witness :
    logWithSensitiveData ⟨Level.error, true⟩ ["console"] (fun _ => "") 10
      .info "m" [("pin", .plain (.str "1234"))] ⟨"why", "who", some 4⟩ "ts" = [] :=
  C10_audit_gated ⟨Level.error, true⟩ ["console"] (fun _ => "") 10 .info "m"
    [("pin", .plain (.str "1234"))] ⟨"why", "who", some 4⟩ "ts" (by decide)
    (Or.inr (by decide))

/-! ## Claim C1 — `SensitiveValue` redaction (corrected)

Serialization replaces every `SensitiveValue` by its placeholder before
anything of the wrapped value is rendered, so the output is a function of
the wrapped-value-erased tree.  But the spec's "the output never contains
the wrapped value" is not literally true: the output *can* contain the
wrapped value when that value happens to coincide with text that is
legitimately in the redacted output — e.g. a wrapped value equal to the
placeholder itself, or equal to a plain sibling string. -/

mutual
theorem redactTree_erase : ∀ v : JsValue,
    redactTree (eraseWrapped v) = redactTree v
  | .null => rfl
  | .bool _ => rfl
  | .num _ => rfl
  | .str _ => rfl
  | .sensitive _ _ => rfl
  | .arr es => by
      simp only [eraseWrapped, redactTree, redactTreeList_erase es]
  | .obj fs => by
      simp only [eraseWrapped, redactTree, redactTreeFields_erase fs]
theorem redactTreeList_erase : ∀ es : JsList,
    redactTreeList (eraseWrappedList es) = redactTreeList es
  | .nil => rfl
  | .cons v t => by
      simp only [eraseWrappedList, redactTreeList, redactTree_erase v,
        redactTreeList_erase t]
theorem redactTreeFields_erase : ∀ fs : JsFields,
    redactTreeFields (eraseWrappedFields fs) = redactTreeFields fs
  | .nil => rfl
  | .cons k v t => by
      simp only [eraseWrappedFields, redactTreeFields, redactTree_erase v,
        redactTreeFields_erase t]
end

mutual
theorem hasStrLeaf_redact (ph : String) (hr : redactStr ph = ph) :
    ∀ v : JsValue, hasSensitivePh ph v = true →
      hasStrLeaf ph (redactTree v) = true
  | .sensitive _ ph0, h => by
      have : ph0 = ph := by simpa [hasSensitivePh] using h
      subst this
      simp [redactTree, hasStrLeaf, hr]
  | .arr es, h => by
      simp only [hasSensitivePh] at h
      simpa [redactTree, hasStrLeaf] using hasStrLeafList_redact ph hr es h
  | .obj fs, h => by
      simp only [hasSensitivePh] at h
      simpa [redactTree, hasStrLeaf] using hasStrLeafFields_redact ph hr fs h
theorem hasStrLeafList_redact (ph : String) (hr : redactStr ph = ph) :
    ∀ es : JsList, hasSensitivePhList ph es = true →
      hasStrLeafList ph (redactTreeList es) = true
  | .cons v t, h => by
      simp only [hasSensitivePhList, Bool.or_eq_true] at h
      simp only [redactTreeList, hasStrLeafList, Bool.or_eq_true]
      rcases h with h | h
      · exact Or.inl (hasStrLeaf_redact ph hr v h)
      · exact Or.inr (hasStrLeafList_redact ph hr t h)
theorem hasStrLeafFields_redact (ph : String) (hr : redactStr ph = ph) :
    ∀ fs : JsFields, hasSensitivePhFields ph fs = true →
      hasStrLeafFields ph (redactTreeFields fs) = true
  | .cons k v t, h => by
      simp only [hasSensitivePhFields, Bool.or_eq_true] at h
      simp only [redactTreeFields, hasStrLeafFields, Bool.or_eq_true]
      rcases h with h | h
      · exact Or.inl (hasStrLeaf_redact ph hr v h)
      · exact Or.inr (hasStrLeafFields_redact ph hr t h)
end

theorem escapeCh_id (c : Char)
    (h : (c == '"' || c == '\\' || decide (c.toNat < 0x20)) = false) :
    escapeCh c = [c] := by
  simp only [Bool.or_eq_false_iff, decide_eq_false_iff_not] at h
  obtain ⟨⟨hq, hb⟩, hc⟩ := h
  unfold escapeCh
  rw [if_neg (by simp [hq]), if_neg (by simp [hb])]
  have h8 : ¬(c == Char.ofNat 8) = true := by
    intro hcontra
    have : c = Char.ofNat 8 := by simpa using hcontra
    subst this
    exact hc (by decide)
  have h12 : ¬(c == Char.ofNat 12) = true := by
    intro hcontra
    have : c = Char.ofNat 12 := by simpa using hcontra
    subst this
    exact hc (by decide)
  have hn : ¬(c == '\n') = true := by
    intro hcontra
    have : c = '\n' := by simpa using hcontra
    subst this
    exact hc (by decide)
  have hrr : ¬(c == '\r') = true := by
    intro hcontra
    have : c = '\r' := by simpa using hcontra
    subst this
    exact hc (by decide)
  have ht : ¬(c == '\t') = true := by
    intro hcontra
    have : c = '\t' := by simpa using hcontra
    subst this
    exact hc (by decide)
  rw [if_neg (by simpa using h8), if_neg (by simpa using h12),
      if_neg (by simpa using hn), if_neg (by simpa using hrr),
      if_neg (by simpa using ht), if_neg hc]

theorem escapeChars_id : ∀ l : List Char,
    (∀ c ∈ l, (c == '"' || c == '\\' || decide (c.toNat < 0x20)) = false) →
    escapeChars l = l := by
  intro l
  induction l with
  | nil => intro _; rfl
  | cons c t ih =>
      intro h
      simp only [escapeChars, escapeCh_id c (h c (by simp)),
        ih (fun d hd => h d (by simp [hd]))]
      rfl

theorem renderStr_escFree (s : String) (h : escFree s = true) :
    renderStr s = '"' :: (s.data ++ ['"']) := by
  unfold renderStr
  rw [escapeChars_id s.data ?_]
  intro c hc
  unfold escFree at h
  have := (List.all_eq_true.mp h) c hc
  simpa using this

mutual
theorem renderI_leaf (s : String) :
    ∀ (v : JsValue) (ind : List Char), hasStrLeaf s v = true →
      ∃ pre post, renderI ind v = pre ++ (renderStr s ++ post)
  | .str s0, ind, h => by
      have : s0 = s := by simpa [hasStrLeaf] using h
      subst this
      exact ⟨[], [], by simp [renderI]⟩
  | .arr es, ind, h => by
      simp only [hasStrLeaf] at h
      cases es with
      | nil => simp [hasStrLeafList] at h
      | cons v t =>
          obtain ⟨pre, post, heq⟩ :=
            renderIList_leaf s (.cons v t) (ind ++ [' ', ' ']) h
          exact ⟨'[' :: '\n' :: (ind ++ [' ', ' ']) ++ pre,
                 post ++ '\n' :: ind ++ [']'],
                 by simp [renderI, heq, List.append_assoc]⟩
  | .obj fs, ind, h => by
      simp only [hasStrLeaf] at h
      cases fs with
      | nil => simp [hasStrLeafFields] at h
      | cons k v t =>
          obtain ⟨pre, post, heq⟩ :=
            renderIFields_leaf s (.cons k v t) (ind ++ [' ', ' ']) h
          exact ⟨lbr :: '\n' :: (ind ++ [' ', ' ']) ++ pre,
                 post ++ '\n' :: ind ++ [rbr],
                 by simp [renderI, heq, List.append_assoc]⟩
theorem renderIList_leaf (s : String) :
    ∀ (es : JsList) (ind : List Char), hasStrLeafList s es = true →
      ∃ pre post, renderIList ind es = pre ++ (renderStr s ++ post)
  | .cons v .nil, ind, h => by
      simp only [hasStrLeafList, Bool.or_eq_true] at h
      rcases h with h | h
      · obtain ⟨pre, post, heq⟩ := renderI_leaf s v ind h
        exact ⟨pre, post, by simp [renderIList, heq]⟩
      · simp [hasStrLeafList] at h
  | .cons v (.cons w t), ind, h => by
      simp only [hasStrLeafList, Bool.or_eq_true] at h
      rcases h with h | h
      · obtain ⟨pre, post, heq⟩ := renderI_leaf s v ind h
        exact ⟨pre, post ++ ',' :: '\n' :: ind ++ renderIList ind (.cons w t),
               by simp [renderIList, heq, List.append_assoc]⟩
      · have h2 : hasStrLeafList s (.cons w t) = true := by
          simp only [hasStrLeafList, Bool.or_eq_true]
          exact h
        obtain ⟨pre, post, heq⟩ := renderIList_leaf s (.cons w t) ind h2
        exact ⟨renderI ind v ++ ',' :: '\n' :: ind ++ pre, post,
               by simp [renderIList, heq, List.append_assoc]⟩
theorem renderIFields_leaf (s : String) :
    ∀ (fs : JsFields) (ind : List Char), hasStrLeafFields s fs = true →
      ∃ pre post, renderIFields ind fs = pre ++ (renderStr s ++ post)
  | .cons k v .nil, ind, h => by
      simp only [hasStrLeafFields, Bool.or_eq_true] at h
      rcases h with h | h
      · obtain ⟨pre, post, heq⟩ := renderI_leaf s v ind h
        exact ⟨renderStr k ++ ':' :: ' ' :: pre, post,
               by simp [renderIFields, heq, List.append_assoc]⟩
      · simp [hasStrLeafFields] at h
  | .cons k v (.cons k2 v2 t), ind, h => by
      simp only [hasStrLeafFields, Bool.or_eq_true] at h
      rcases h with h | h
      · obtain ⟨pre, post, heq⟩ := renderI_leaf s v ind h
        exact ⟨renderStr k ++ ':' :: ' ' :: pre,
               post ++ ',' :: '\n' :: ind ++ renderIFields ind (.cons k2 v2 t),
               by simp [renderIFields, heq, List.append_assoc]⟩
      · have h2 : hasStrLeafFields s (.cons k2 v2 t) = true := by
          simp only [hasStrLeafFields, Bool.or_eq_true]
          exact h
        obtain ⟨pre, post, heq⟩ := renderIFields_leaf s (.cons k2 v2 t) ind h2
        exact ⟨renderStr k ++ ':' :: ' ' :: renderI ind v ++ ',' :: '\n' :: ind ++ pre,
               post, by simp [renderIFields, heq, List.append_assoc]⟩
end

/-- C1 counterexample: the output of the serialization pass *does* contain
the wrapped value when the wrapped value coincides with the placeholder, or
with a plain sibling string, even though every `SensitiveValue` is rendered
as its placeholder. -/
theorem C1_counterexample :
    strHas (safeStringify (.obj (jsFieldsOf
        [("secret", .sensitive (.str "[REDACTED]") "[REDACTED]")])))
      "[REDACTED]" = true ∧
    strHas (safeStringify (.obj (jsFieldsOf
        [ ("note", .str "my secret")
        , ("token", .sensitive (.str "secret") "[REDACTED]") ])))
      "secret" = true := by
  exact ⟨by decide, by decide⟩

/-- C1 (amended): the serialization used for console and file output is a
function of the context with every wrapped sensitive value erased — two
contexts that differ only in wrapped values render identically — and it
contains the placeholder of every `SensitiveValue` in the context (for a
placeholder that needs no JSON escaping and itself matches no sensitive
pattern, as `[REDACTED]` does); hence the output reveals a wrapped value
only when that value coincides with text already present in the
wrapped-value-independent output (e.g. the placeholder itself). -/
theorem C1_sensitive_redaction :
    (∀ v v' : JsValue, eraseWrapped v = eraseWrapped v' →
       safeStringify v = safeStringify v') ∧
    (∀ (v : JsValue) (ph : String), hasSensitivePh ph v = true →
       escFree ph = true → containsSensitiveData ph = false →
       strHas (safeStringify v) ph = true) := by
  constructor
  · intro v v' h
    unfold safeStringify
    rw [← redactTree_erase v, ← redactTree_erase v', h]
  · intro v ph hmem hesc hpat
    have hr : redactStr ph = ph := by
      unfold redactStr
      rw [if_neg (by simp [hpat])]
    have hleaf : hasStrLeaf ph (redactTree v) = true :=
      hasStrLeaf_redact ph hr v hmem
    obtain ⟨pre, post, heq⟩ := renderI_leaf ph (redactTree v) [] hleaf
    rw [renderStr_escFree ph hesc] at heq
    unfold safeStringify
    show subHas ph.data (renderI [] (redactTree v)) = true
    rw [heq]
    have : pre ++ ('"' :: (ph.data ++ ['"']) ++ post)
        = (pre ++ ['"']) ++ (ph.data ++ ('"' :: post)) := by
      simp [List.append_assoc]
    rw [this]
    exact subHas_mid (pre ++ ['"']) ph.data ('"' :: post)

/-- C1 witness: the amended theorem applied to a context holding
`SensitiveValue.from('secret', '[REDACTED]')`: identical output whatever the
wrapped value, and the output contains `[REDACTED]`. -/
theorem C1_sensitive_redaction_witness :
    safeStringify (.obj (jsFieldsOf [("token", .sensitive (.str "secret") "[REDACTED]")]))
      = safeStringify (.obj (jsFieldsOf [("token", .sensitive (.str "other") "[REDACTED]")])) ∧
    strHas (safeStringify (.obj (jsFieldsOf
        [("token", .sensitive (.str "secret") "[REDACTED]")]))) "[REDACTED]" = true := by
  constructor
  · exact C1_sensitive_redaction.1
      (.obj (jsFieldsOf [("token", .sensitive (.str "secret") "[REDACTED]")]))
      (.obj (jsFieldsOf [("token", .sensitive (.str "other") "[REDACTED]")]))
      (by decide)
  · exact C1_sensitive_redaction.2
      (.obj (jsFieldsOf [("token", .sensitive (.str "secret") "[REDACTED]")]))
      "[REDACTED]" (by decide) (by decide) (by decide)

/-! ## Claim C9 — the `JsonFormatter` round-trip (confirmed)

`JsonFormatter.format` is `JSON.stringify({level, message, timestamp,
...context})` and `JSON.parse` inverts it.  The lemmas below prove the
codec round-trip for the whole modelled grammar: strings (escape-inverse),
integers (digit-inverse) and the structural cases, then the claim composes
them with the spread-semantics lemmas for the merged object. -/

theorem hexVal_hexDigitCh : ∀ k : Nat, k < 16 → hexVal (hexDigitCh k) = some k := by
  decide

/-- The literal-character path of the string parser. -/
theorem parseStrBody_lit (c : Char) (tail : List Char)
    (hq : ¬c = '"') (hb : ¬c = '\\') :
    parseStrBody (c :: tail)
      = (parseStrBody tail).map (fun p => (c :: p.1, p.2)) := by
  rw [parseStrBody.eq_def]
  dsimp only
  rw [if_neg hq, if_neg hb]
  cases parseStrBody tail with
  | none => rfl
  | some p => rfl

/-- The named-escape path of the string parser. -/
theorem parseStrBody_namedEsc (e ch : Char) (tail : List Char)
    (he : ¬e = 'u') (hu : unescCh e = some ch) :
    parseStrBody ('\\' :: e :: tail)
      = (parseStrBody tail).map (fun p => (ch :: p.1, p.2)) := by
  rw [parseStrBody.eq_def]
  dsimp only
  rw [if_neg (by decide : ¬ '\\' = '"'), if_pos rfl]
  rw [if_neg he, hu]
  cases parseStrBody tail with
  | none => rfl
  | some p => rfl

/-- The `\uXXXX` path of the string parser. -/
theorem parseStrBody_hexEsc (h1 h2 h3 h4 : Char) (a b d e2 : Nat)
    (tail : List Char) (e1 : hexVal h1 = some a) (eb : hexVal h2 = some b)
    (ed : hexVal h3 = some d) (ee : hexVal h4 = some e2) :
    parseStrBody ('\\' :: 'u' :: h1 :: h2 :: h3 :: h4 :: tail)
      = (parseStrBody tail).map
          (fun p => (Char.ofNat (((a * 16 + b) * 16 + d) * 16 + e2) :: p.1, p.2)) := by
  rw [parseStrBody.eq_def]
  dsimp only
  rw [if_neg (by decide : ¬ '\\' = '"'), if_pos rfl]
  rw [if_pos rfl]
  rw [e1, eb, ed, ee]
  cases parseStrBody tail with
  | none => rfl
  | some p => rfl

theorem parseStrBody_escapeCh (c : Char) (tail : List Char) :
    parseStrBody (escapeCh c ++ tail)
      = (parseStrBody tail).map (fun p => (c :: p.1, p.2)) := by
  by_cases hq : c = '"'
  · subst hq
    exact parseStrBody_namedEsc '"' '"' tail (by decide) (by decide)
  · by_cases hb : c = '\\'
    · subst hb
      rw [show escapeCh '\\' ++ tail = '\\' :: '\\' :: tail from rfl]
      exact parseStrBody_namedEsc '\\' '\\' tail (by decide) (by decide)
    · by_cases h8 : c = Char.ofNat 8
      · subst h8
        exact parseStrBody_namedEsc 'b' (Char.ofNat 8) tail (by decide) (by decide)
      · by_cases h12 : c = Char.ofNat 12
        · subst h12
          exact parseStrBody_namedEsc 'f' (Char.ofNat 12) tail (by decide) (by decide)
        · by_cases hn : c = '\n'
          · subst hn
            exact parseStrBody_namedEsc 'n' '\n' tail (by decide) (by decide)
          · by_cases hr : c = '\r'
            · subst hr
              exact parseStrBody_namedEsc 'r' '\r' tail (by decide) (by decide)
            · by_cases ht : c = '\t'
              · subst ht
                exact parseStrBody_namedEsc 't' '\t' tail (by decide) (by decide)
              · by_cases hlo : c.toNat < 0x20
                · have hesc : escapeCh c =
                      ['\\', 'u', '0', '0', hexDigitCh (c.toNat / 16),
                       hexDigitCh (c.toNat % 16)] := by
                    unfold escapeCh
                    rw [if_neg (by simp [hq]), if_neg (by simp [hb]),
                        if_neg (by simp [h8]), if_neg (by simp [h12]),
                        if_neg (by simp [hn]), if_neg (by simp [hr]),
                        if_neg (by simp [ht]), if_pos hlo]
                  rw [hesc]
                  rw [show (['\\', 'u', '0', '0', hexDigitCh (c.toNat / 16),
                        hexDigitCh (c.toNat % 16)] : List Char) ++ tail
                      = '\\' :: 'u' :: '0' :: '0' :: hexDigitCh (c.toNat / 16) ::
                          hexDigitCh (c.toNat % 16) :: tail from rfl]
                  rw [parseStrBody_hexEsc '0' '0' _ _ 0 0 (c.toNat / 16) (c.toNat % 16)
                        tail (by decide) (by decide)
                        (hexVal_hexDigitCh _ (by omega))
                        (hexVal_hexDigitCh _ (by omega))]
                  rw [show ((0 * 16 + 0) * 16 + c.toNat / 16) * 16 + c.toNat % 16
                        = c.toNat from by omega, Char.ofNat_toNat]
                · have hesc : escapeCh c = [c] := by
                    unfold escapeCh
                    rw [if_neg (by simp [hq]), if_neg (by simp [hb]),
                        if_neg (by simp [h8]), if_neg (by simp [h12]),
                        if_neg (by simp [hn]), if_neg (by simp [hr]),
                        if_neg (by simp [ht]), if_neg hlo]
                  rw [hesc]
                  exact parseStrBody_lit c tail hq hb

theorem parseStrBody_escapeChars : ∀ l tail : List Char,
    parseStrBody (escapeChars l ++ ('"' :: tail)) = some (l, tail) := by
  intro l
  induction l with
  | nil =>
      intro tail
      simp only [escapeChars, List.nil_append]
      rw [parseStrBody.eq_def]
      dsimp only
      rw [if_pos rfl]
  | cons c t ih =>
      intro tail
      show parseStrBody ((escapeCh c ++ escapeChars t) ++ ('"' :: tail)) = _
      rw [List.append_assoc, parseStrBody_escapeCh, ih tail]
      rfl

theorem natChars_acc (n : Nat) : ∀ acc : List Char,
    natChars n acc = natChars n [] ++ acc := by
  induction n using Nat.strongRecOn with
  | ind n ih =>
    intro acc
    rw [natChars.eq_def n acc, natChars.eq_def n []]
    by_cases hsmall : n < 10
    · simp [hsmall]
    · simp only [if_neg hsmall]
      rw [ih (n / 10) (by omega), ih (n / 10) (by omega) [_]]
      simp

theorem natChars_step (n : Nat) :
    natChars n [] = (if n < 10 then [] else natChars (n / 10) [])
                      ++ [Char.ofNat ('0'.toNat + n % 10)] := by
  rw [natChars.eq_def]
  by_cases h : n < 10
  · simp [h]
  · simp only [if_neg h]
    exact natChars_acc (n / 10) [_]

theorem natChars_ne_nil (n : Nat) : natChars n [] ≠ [] := by
  rw [natChars_step]
  simp

theorem digitCh_val (k : Nat) (h : k < 10) :
    (Char.ofNat ('0'.toNat + k)).toNat - '0'.toNat = k ∧
    isDigitCh (Char.ofNat ('0'.toNat + k)) = true := by
  interval_cases k <;> exact ⟨by decide, by decide⟩

theorem natChars_all_digits (n : Nat) :
    ∀ c ∈ natChars n [], isDigitCh c = true := by
  induction n using Nat.strongRecOn with
  | ind n ih =>
    rw [natChars_step]
    intro c hc
    rcases List.mem_append.mp hc with h | h
    · by_cases h10 : n < 10
      · simp [h10] at h
      · exact ih (n / 10) (by omega) c (by simpa [h10] using h)
    · rw [List.mem_singleton] at h
      subst h
      exact (digitCh_val (n % 10) (by omega)).2

theorem digitsVal_natChars (n : Nat) : digitsVal (natChars n []) = n := by
  induction n using Nat.strongRecOn with
  | ind n ih =>
    rw [natChars_step]
    unfold digitsVal
    rw [List.foldl_append]
    by_cases h : n < 10
    · simp only [if_pos h, List.foldl_nil, List.foldl_cons]
      rw [(digitCh_val (n % 10) (by omega)).1]
      omega
    · simp only [if_neg h, List.foldl_cons, List.foldl_nil]
      have ihv := ih (n / 10) (by omega)
      unfold digitsVal at ihv
      rw [ihv, (digitCh_val (n % 10) (by omega)).1]
      omega

/-- A remainder that cannot extend a digit run. -/
def numDelim : List Char → Bool
  | [] => true
  | c :: _ => !isDigitCh c

theorem takeWhile_digits_append (ds rest : List Char)
    (hds : ∀ c ∈ ds, isDigitCh c = true) (hrest : numDelim rest = true) :
    (ds ++ rest).takeWhile isDigitCh = ds ∧
    (ds ++ rest).drop ds.length = rest := by
  constructor
  · induction ds with
    | nil =>
        cases rest with
        | nil => rfl
        | cons c t =>
            simp only [numDelim, Bool.not_eq_true'] at hrest
            simp [List.takeWhile, hrest]
    | cons c t ih =>
        have hc : isDigitCh c = true := hds c (by simp)
        simp only [List.cons_append, List.takeWhile_cons, hc, if_true]
        rw [ih (fun x hx => hds x (by simp [hx]))]
  · simp

theorem digit_first (n : Nat) :
    ∃ c t, natChars n [] = c :: t ∧ isDigitCh c = true := by
  cases h : natChars n [] with
  | nil => exact absurd h (natChars_ne_nil n)
  | cons c t =>
      refine ⟨c, t, rfl, natChars_all_digits n c ?_⟩
      rw [h]
      exact List.mem_cons_self c t

theorem digit_facts (c : Char) (h : isDigitCh c = true) :
    c ≠ '-' ∧ c ≠ 'n' ∧ c ≠ 't' ∧ c ≠ 'f' ∧ c ≠ '"' ∧ c ≠ '[' ∧ c ≠ ']' ∧
    c ≠ lbr ∧ c ≠ rbr ∧ c ≠ ',' ∧ c ≠ ':' ∧ jsonWs c = false := by
  have hne : ∀ d : Char, isDigitCh d = false → c ≠ d := by
    intro d hd hcd
    subst hcd
    rw [h] at hd
    cases hd
  refine ⟨hne '-' (by decide), hne 'n' (by decide), hne 't' (by decide),
    hne 'f' (by decide), hne '"' (by decide), hne '[' (by decide),
    hne ']' (by decide), hne lbr (by decide), hne rbr (by decide),
    hne ',' (by decide), hne ':' (by decide), ?_⟩
  cases hjw : jsonWs c with
  | false => rfl
  | true =>
      exfalso
      unfold jsonWs at hjw
      simp only [Bool.or_eq_true, beq_iff_eq] at hjw
      rcases hjw with ((h1 | h1) | h1) | h1 <;>
        (subst h1; exact absurd h (by decide))

theorem parseNumLit_intChars (n : Int) (rest : List Char)
    (hrest : numDelim rest = true) :
    parseNumLit (intChars n ++ rest) = some (n, rest) := by
  by_cases hneg : n < 0
  · have harg : intChars n ++ rest = '-' :: (natChars n.natAbs [] ++ rest) := by
      simp [intChars, hneg]
    rw [harg]
    unfold parseNumLit
    dsimp only
    rw [if_pos rfl]
    obtain ⟨htake, hdrop⟩ :=
      takeWhile_digits_append (natChars n.natAbs []) rest
        (natChars_all_digits n.natAbs) hrest
    rw [htake]
    rw [if_neg (by simpa using natChars_ne_nil n.natAbs)]
    have hlen : (natChars n.natAbs [] ++ rest).drop (natChars n.natAbs []).length
        = rest := by simp
    rw [hlen, digitsVal_natChars]
    have : -((n.natAbs : Nat) : Int) = n := by omega
    rw [this]
  · obtain ⟨c0, t0, h0, hc0⟩ := digit_first n.natAbs
    have harg : intChars n ++ rest = c0 :: (t0 ++ rest) := by
      simp [intChars, hneg, h0]
    rw [harg]
    unfold parseNumLit
    dsimp only
    rw [if_neg (digit_facts c0 hc0).1]
    obtain ⟨htake, hdrop⟩ :=
      takeWhile_digits_append (natChars n.natAbs []) rest
        (natChars_all_digits n.natAbs) hrest
    rw [h0] at htake hdrop
    simp only [List.cons_append] at htake hdrop
    rw [htake]
    rw [if_neg (by simp)]
    simp only [List.length_cons] at hdrop ⊢
    rw [hdrop]
    have hdv : digitsVal (c0 :: t0) = n.natAbs := by
      have := digitsVal_natChars n.natAbs
      rwa [h0] at this
    rw [hdv]
    have : ((n.natAbs : Nat) : Int) = n := by omega
    rw [this]

/-! Spread-semantics lemmas: on duplicate-free members, building an object
by repeated assignment is plain concatenation. -/

theorem fieldsAppend_nilR : ∀ fs : JsFields, fieldsAppend fs .nil = fs
  | .nil => rfl
  | .cons k v t => by rw [fieldsAppend, fieldsAppend_nilR t]

theorem fieldsAppend_shift : ∀ (dst : JsFields) (k : String) (v : JsValue)
    (t : JsFields),
    fieldsAppend (fieldsAppend dst (.cons k v .nil)) t
      = fieldsAppend dst (.cons k v t)
  | .nil, k, v, t => rfl
  | .cons k0 v0 d, k, v, t => by
      simp only [fieldsAppend]
      rw [fieldsAppend_shift d k v t]

theorem jsAssign_absent : ∀ (fs : JsFields) (k : String) (v : JsValue),
    keyAbsent k fs = true → jsAssign fs k v = fieldsAppend fs (.cons k v .nil)
  | .nil, k, v, _ => rfl
  | .cons k0 v0 t, k, v, h => by
      simp only [keyAbsent, Bool.and_eq_true, decide_eq_true_eq] at h
      simp only [jsAssign, fieldsAppend, if_neg h.1]
      rw [jsAssign_absent t k v h.2]

theorem keyAbsent_appendOne : ∀ (dst : JsFields) (k2 k : String) (v : JsValue),
    keyAbsent k2 dst = true → k ≠ k2 →
    keyAbsent k2 (fieldsAppend dst (.cons k v .nil)) = true
  | .nil, k2, k, v, _, hne => by
      simp [fieldsAppend, keyAbsent, hne]
  | .cons k0 v0 t, k2, k, v, h, hne => by
      simp only [keyAbsent, Bool.and_eq_true, decide_eq_true_eq] at h
      simp only [fieldsAppend, keyAbsent, Bool.and_eq_true, decide_eq_true_eq]
      exact ⟨h.1, keyAbsent_appendOne t k2 k v h.2 hne⟩

theorem disjFrom_appendOne : ∀ (src dst : JsFields) (k : String) (v : JsValue),
    disjFrom src dst = true → keyAbsent k src = true →
    disjFrom src (fieldsAppend dst (.cons k v .nil)) = true
  | .nil, _, _, _, _, _ => rfl
  | .cons k2 v2 t, dst, k, v, h, ha => by
      simp only [disjFrom, Bool.and_eq_true] at h
      simp only [keyAbsent, Bool.and_eq_true, decide_eq_true_eq] at ha
      simp only [disjFrom, Bool.and_eq_true]
      exact ⟨keyAbsent_appendOne dst k2 k v h.1 (Ne.symm ha.1),
             disjFrom_appendOne t dst k v h.2 ha.2⟩

theorem jsSpread_append : ∀ (src dst : JsFields),
    disjFrom src dst = true → nodupKeys src = true →
    jsSpread dst src = fieldsAppend dst src
  | .nil, dst, _, _ => by
      simp only [jsSpread]
      rw [fieldsAppend_nilR]
  | .cons k v t, dst, hd, hn => by
      simp only [disjFrom, Bool.and_eq_true] at hd
      simp only [nodupKeys, Bool.and_eq_true] at hn
      simp only [jsSpread]
      rw [jsAssign_absent dst k v hd.1]
      rw [jsSpread_append t (fieldsAppend dst (.cons k v .nil))
            (disjFrom_appendOne t dst k v hd.2 hn.1) hn.2]
      exact fieldsAppend_shift dst k v t

theorem disjFrom_nil : ∀ fs : JsFields, disjFrom fs .nil = true
  | .nil => rfl
  | .cons k v t => by simp [disjFrom, keyAbsent, disjFrom_nil t]

theorem jsSpread_nil_eq (fs : JsFields) (h : nodupKeys fs = true) :
    jsSpread .nil fs = fs := by
  rw [jsSpread_append fs .nil (disjFrom_nil fs) h]
  rfl

theorem keyAbsent_jsAssign : ∀ (fs : JsFields) (k2 k : String) (v : JsValue),
    keyAbsent k2 fs = true → k ≠ k2 → keyAbsent k2 (jsAssign fs k v) = true
  | .nil, k2, k, v, _, hne => by simp [jsAssign, keyAbsent, hne]
  | .cons k0 v0 t, k2, k, v, h, hne => by
      simp only [keyAbsent, Bool.and_eq_true, decide_eq_true_eq] at h
      by_cases hk : k0 = k
      · simp only [jsAssign, if_pos hk, keyAbsent, Bool.and_eq_true,
          decide_eq_true_eq]
        exact ⟨h.1, h.2⟩
      · simp only [jsAssign, if_neg hk, keyAbsent, Bool.and_eq_true,
          decide_eq_true_eq]
        exact ⟨h.1, keyAbsent_jsAssign t k2 k v h.2 hne⟩

theorem nodupKeys_jsAssign : ∀ (fs : JsFields) (k : String) (v : JsValue),
    nodupKeys fs = true → nodupKeys (jsAssign fs k v) = true
  | .nil, k, v, _ => by simp [jsAssign, nodupKeys, keyAbsent]
  | .cons k0 v0 t, k, v, h => by
      simp only [nodupKeys, Bool.and_eq_true] at h
      by_cases hk : k0 = k
      · simp only [jsAssign, if_pos hk, nodupKeys, Bool.and_eq_true]
        exact ⟨h.1, h.2⟩
      · simp only [jsAssign, if_neg hk, nodupKeys, Bool.and_eq_true]
        exact ⟨keyAbsent_jsAssign t k0 k v h.1 (fun hc => hk hc.symm),
               nodupKeys_jsAssign t k v h.2⟩

theorem nodupKeys_jsSpread : ∀ (src dst : JsFields),
    nodupKeys dst = true → nodupKeys (jsSpread dst src) = true
  | .nil, dst, h => h
  | .cons k v t, dst, h => by
      simp only [jsSpread]
      exact nodupKeys_jsSpread t (jsAssign dst k v) (nodupKeys_jsAssign dst k v h)

theorem plainFields_jsAssign : ∀ (fs : JsFields) (k : String) (v : JsValue),
    plainFields fs = true → plainVal v = true →
    plainFields (jsAssign fs k v) = true
  | .nil, k, v, _, hv => by simp [jsAssign, plainFields, hv]
  | .cons k0 v0 t, k, v, h, hv => by
      simp only [plainFields, Bool.and_eq_true] at h
      by_cases hk : k0 = k
      · simp only [jsAssign, if_pos hk, plainFields, Bool.and_eq_true]
        exact ⟨hv, h.2⟩
      · simp only [jsAssign, if_neg hk, plainFields, Bool.and_eq_true]
        exact ⟨h.1, plainFields_jsAssign t k v h.2 hv⟩

theorem plainFields_jsSpread : ∀ (src dst : JsFields),
    plainFields dst = true → plainFields src = true →
    plainFields (jsSpread dst src) = true
  | .nil, dst, hd, _ => hd
  | .cons k v t, dst, hd, hs => by
      simp only [plainFields, Bool.and_eq_true] at hs
      simp only [jsSpread]
      exact plainFields_jsSpread t (jsAssign dst k v)
        (plainFields_jsAssign dst k v hd hs.1) hs.2

/-! Parser dispatch lemmas: how `parseVal` reduces on each first character. -/

theorem skipWs_cons (c : Char) (t : List Char) (h : jsonWs c = false) :
    skipWs (c :: t) = c :: t := by
  simp [skipWs, h]

/-- Every compact rendering begins with a character that is not whitespace
and closes nothing. -/
theorem renderC_head (v : JsValue) :
    ∃ c t, renderC v = c :: t ∧ jsonWs c = false ∧ c ≠ ']' ∧ c ≠ rbr ∧ c ≠ ',' := by
  have pk : ∀ c : Char, c ∈ ['n', 't', 'f', '-', '"', '[', lbr] →
      jsonWs c = false ∧ c ≠ ']' ∧ c ≠ rbr ∧ c ≠ ',' := by decide
  cases v with
  | null => exact ⟨'n', _, rfl, pk 'n' (by decide)⟩
  | bool b =>
      cases b with
      | true => exact ⟨'t', _, rfl, pk 't' (by decide)⟩
      | false => exact ⟨'f', _, rfl, pk 'f' (by decide)⟩
  | num n =>
      by_cases hm : n < 0
      · refine ⟨'-', natChars n.natAbs [], ?_, pk '-' (by decide)⟩
        simp [renderC, intChars, hm]
      · obtain ⟨c0, t0, h0, hc0⟩ := digit_first n.natAbs
        obtain ⟨_, _, _, _, _, _, hbr, _, hrb, hcm, _, hws⟩ := digit_facts c0 hc0
        refine ⟨c0, t0, ?_, hws, hbr, hrb, hcm⟩
        simp [renderC, intChars, hm, h0]
  | str s => exact ⟨'"', _, rfl, pk '"' (by decide)⟩
  | arr es => exact ⟨'[', _, rfl, pk '[' (by decide)⟩
  | obj fs => exact ⟨lbr, _, rfl, pk lbr (by decide)⟩
  | sensitive w ph => exact ⟨'"', _, rfl, pk '"' (by decide)⟩

theorem parseVal_numHead (f : Nat) (c0 : Char) (t0 : List Char)
    (hws : jsonWs c0 = false) (dn : c0 ≠ 'n') (dt : c0 ≠ 't') (df : c0 ≠ 'f')
    (dq : c0 ≠ '"') (dbk : c0 ≠ '[') (dbr : c0 ≠ lbr)
    (hg : (c0 == '-' || isDigitCh c0) = true) :
    parseVal (f + 1) (c0 :: t0)
      = (parseNumLit (c0 :: t0)).map (fun p => (JsValue.num p.1, p.2)) := by
  cases hp : parseNumLit (c0 :: t0) with
  | none => simp [parseVal, skipWs_cons c0 t0 hws, dn, dt, df, dq, dbk, dbr, hg, hp]
  | some p => simp [parseVal, skipWs_cons c0 t0 hws, dn, dt, df, dq, dbk, dbr, hg, hp]

theorem parseVal_quote (f : Nat) (r : List Char) :
    parseVal (f + 1) ('"' :: r)
      = (parseStrBody r).map (fun p => (JsValue.str ⟨p.1⟩, p.2)) := by
  cases hp : parseStrBody r with
  | none => simp [parseVal, skipWs, jsonWs, hp]
  | some p => simp [parseVal, skipWs, jsonWs, hp]

theorem parseVal_bracket (f : Nat) (c0 : Char) (t0 : List Char)
    (hws : jsonWs c0 = false) (hbr : c0 ≠ ']') :
    parseVal (f + 1) ('[' :: (c0 :: t0))
      = (parseItems f (c0 :: t0)).map (fun p => (JsValue.arr p.1, p.2)) := by
  cases hp : parseItems f (c0 :: t0) with
  | none =>
      simp [parseVal, skipWs_cons '[' (c0 :: t0) (by decide),
        skipWs_cons c0 t0 hws, hbr, hp]
  | some p =>
      simp [parseVal, skipWs_cons '[' (c0 :: t0) (by decide),
        skipWs_cons c0 t0 hws, hbr, hp]

theorem parseVal_brace (f : Nat) (c0 : Char) (t0 : List Char)
    (hws : jsonWs c0 = false) (hbr : c0 ≠ rbr) :
    parseVal (f + 1) (lbr :: (c0 :: t0))
      = (parseFields f (c0 :: t0)).map
          (fun p => (JsValue.obj (jsSpread .nil p.1), p.2)) := by
  cases hp : parseFields f (c0 :: t0) with
  | none =>
      simp [parseVal, skipWs_cons lbr (c0 :: t0) (by decide),
        skipWs_cons c0 t0 hws, hbr, hp,
        show lbr ≠ 'n' from by decide, show lbr ≠ 't' from by decide,
        show lbr ≠ 'f' from by decide, show lbr ≠ '"' from by decide,
        show lbr ≠ '[' from by decide]
  | some p =>
      simp [parseVal, skipWs_cons lbr (c0 :: t0) (by decide),
        skipWs_cons c0 t0 hws, hbr, hp,
        show lbr ≠ 'n' from by decide, show lbr ≠ 't' from by decide,
        show lbr ≠ 'f' from by decide, show lbr ≠ '"' from by decide,
        show lbr ≠ '[' from by decide]

theorem skipWs_quote (t : List Char) : skipWs ('"' :: t) = '"' :: t :=
  skipWs_cons _ _ (by decide)

theorem skipWs_colon (t : List Char) : skipWs (':' :: t) = ':' :: t :=
  skipWs_cons _ _ (by decide)

theorem skipWs_comma (t : List Char) : skipWs (',' :: t) = ',' :: t :=
  skipWs_cons _ _ (by decide)

theorem skipWs_rsq (t : List Char) : skipWs (']' :: t) = ']' :: t :=
  skipWs_cons _ _ (by decide)

theorem skipWs_rbrace (t : List Char) : skipWs (rbr :: t) = rbr :: t :=
  skipWs_cons _ _ (by decide)

mutual
theorem rt_val : ∀ (v : JsValue) (fuel : Nat) (rest : List Char),
    plainVal v = true → (renderC v).length < fuel → numDelim rest = true →
    parseVal fuel (renderC v ++ rest) = some (v, rest)
  | .null, fuel, rest, _, hf, _ => by
      cases fuel with
      | zero => simp [renderC] at hf
      | succ f => simp [renderC, parseVal, skipWs, jsonWs]
  | .bool b, fuel, rest, _, hf, _ => by
      cases fuel with
      | zero => cases b <;> simp [renderC] at hf
      | succ f => cases b <;> simp [renderC, parseVal, skipWs, jsonWs]
  | .num n, fuel, rest, _, hf, hr => by
      cases fuel with
      | zero => exact absurd hf (by omega)
      | succ f =>
          show parseVal (f + 1) (intChars n ++ rest) = some (.num n, rest)
          by_cases hm : n < 0
          · have harg : intChars n ++ rest = '-' :: (natChars n.natAbs [] ++ rest) := by
              simp [intChars, hm]
            rw [harg, parseVal_numHead f '-' _ rfl (by decide) (by decide)
                  (by decide) (by decide) (by decide) (by decide) rfl,
                ← harg, parseNumLit_intChars n rest hr]
            rfl
          · obtain ⟨c0, t0, h0, hc0⟩ := digit_first n.natAbs
            obtain ⟨_, hdn, hdt, hdf, hdq, hdbk, _, hdbr, _, _, _, hdws⟩ :=
              digit_facts c0 hc0
            have harg : intChars n ++ rest = c0 :: (t0 ++ rest) := by
              simp [intChars, hm, h0]
            rw [harg, parseVal_numHead f c0 _ hdws hdn hdt hdf hdq hdbk hdbr
                  (by simp [hc0]),
                ← harg, parseNumLit_intChars n rest hr]
            rfl
  | .str s, fuel, rest, _, hf, _ => by
      cases fuel with
      | zero => exact absurd hf (by omega)
      | succ f =>
          have harg : renderC (.str s) ++ rest
              = '"' :: (escapeChars s.data ++ ('"' :: rest)) := by
            simp [renderC, renderStr]
          rw [harg, parseVal_quote f _, parseStrBody_escapeChars s.data rest]
          rfl
  | .arr .nil, fuel, rest, _, hf, _ => by
      cases fuel with
      | zero => simp [renderC, renderCList] at hf
      | succ f =>
          show parseVal (f + 1) ('[' :: (']' :: rest)) = some (.arr .nil, rest)
          simp [parseVal, skipWs, jsonWs]
  | .arr (.cons v es), fuel, rest, hp, hf, _ => by
      have hps : plainVal v = true ∧ plainList es = true := by
        simpa [plainVal, plainList] using hp
      cases fuel with
      | zero => exact absurd hf (by omega)
      | succ f =>
          have hfi : (renderCList (.cons v es)).length + 1 < f := by
            simp only [renderC, List.length_cons, List.length_append,
              List.length_nil] at hf
            omega
          obtain ⟨c0, t0, hren, hws, hbr, _, _⟩ := renderC_head v
          have harg : renderC (.arr (.cons v es)) ++ rest
              = '[' :: (renderCList (.cons v es) ++ (']' :: rest)) := by
            simp [renderC, List.append_assoc]
          have hitems := rt_items v es f rest hps.1 hps.2 hfi
          cases es with
          | nil =>
              have h2 : renderCList (.cons v .nil) ++ (']' :: rest)
                  = c0 :: (t0 ++ (']' :: rest)) := by
                simp [renderCList, hren]
              rw [harg, h2, parseVal_bracket f c0 _ hws hbr, ← h2, hitems]
              rfl
          | cons w t =>
              have h2 : renderCList (.cons v (.cons w t)) ++ (']' :: rest)
                  = c0 :: ((t0 ++ (',' :: renderCList (.cons w t))) ++ (']' :: rest)) := by
                simp [renderCList, hren, List.append_assoc]
              rw [harg, h2, parseVal_bracket f c0 _ hws hbr, ← h2, hitems]
              rfl
  | .obj .nil, fuel, rest, _, hf, _ => by
      cases fuel with
      | zero => simp [renderC, renderCFields] at hf
      | succ f =>
          show parseVal (f + 1) (lbr :: (rbr :: rest)) = some (.obj .nil, rest)
          simp [parseVal, skipWs_cons lbr _ (by decide), skipWs_cons rbr _ (by decide),
            show lbr ≠ 'n' from by decide, show lbr ≠ 't' from by decide,
            show lbr ≠ 'f' from by decide, show lbr ≠ '"' from by decide,
            show lbr ≠ '[' from by decide]
  | .obj (.cons k v fs), fuel, rest, hp, hf, _ => by
      have hps : (keyAbsent k fs && nodupKeys fs) = true ∧ plainVal v = true ∧
          plainFields fs = true := by
        simpa [plainVal, nodupKeys, plainFields] using hp
      cases fuel with
      | zero => exact absurd hf (by omega)
      | succ f =>
          have hfi : (renderCFields (.cons k v fs)).length + 1 < f := by
            simp only [renderC, List.length_cons, List.length_append,
              List.length_nil] at hf
            omega
          have harg : renderC (.obj (.cons k v fs)) ++ rest
              = lbr :: (renderCFields (.cons k v fs) ++ (rbr :: rest)) := by
            simp [renderC, List.append_assoc]
          have hflds := rt_fields k v fs f rest hps.2.1 hps.2.2 hfi
          have hnd : nodupKeys (.cons k v fs) = true := by
            simp [nodupKeys, hps.1]
          cases fs with
          | nil =>
              have h2 : renderCFields (.cons k v .nil) ++ (rbr :: rest)
                  = '"' :: ((escapeChars k.data ++ ('"' :: (':' :: renderC v)))
                      ++ (rbr :: rest)) := by
                simp [renderCFields, renderStr, List.append_assoc]
              rw [harg, h2, parseVal_brace f '"' _ (by decide) (by decide), ← h2,
                  hflds]
              simp [jsSpread_nil_eq _ hnd]
          | cons k2 v2 t =>
              have h2 : renderCFields (.cons k v (.cons k2 v2 t)) ++ (rbr :: rest)
                  = '"' :: ((escapeChars k.data ++ ('"' :: (':' :: (renderC v ++
                      (',' :: renderCFields (.cons k2 v2 t)))))) ++ (rbr :: rest)) := by
                simp [renderCFields, renderStr, List.append_assoc]
              rw [harg, h2, parseVal_brace f '"' _ (by decide) (by decide), ← h2,
                  hflds]
              simp [jsSpread_nil_eq _ hnd]
  | .sensitive w ph, fuel, rest, hp, _, _ => by
      simp [plainVal] at hp
termination_by v _ _ _ _ _ => sizeOf v
theorem rt_items : ∀ (v : JsValue) (es : JsList) (fuel : Nat) (rest : List Char),
    plainVal v = true → plainList es = true →
    (renderCList (.cons v es)).length + 1 < fuel →
    parseItems fuel (renderCList (.cons v es) ++ (']' :: rest)) = some (.cons v es, rest)
  | v, .nil, fuel, rest, hv, _, hf => by
      cases fuel with
      | zero => omega
      | succ f =>
          have hfv : (renderC v).length < f := by
            simp only [renderCList, List.length_cons] at hf
            omega
          have hval := rt_val v f (']' :: rest) hv hfv rfl
          have harg : renderCList (.cons v .nil) ++ (']' :: rest)
              = renderC v ++ (']' :: rest) := by
            simp [renderCList]
          rw [harg]
          simp only [parseItems]
          rw [hval]
          simp [skipWs_rsq]
  | v, .cons w t, fuel, rest, hv, hes, hf => by
      have hws : plainVal w = true ∧ plainList t = true := by
        simpa [plainList] using hes
      cases fuel with
      | zero => omega
      | succ f =>
          have hfv : (renderC v).length < f := by
            simp only [renderCList, List.length_cons, List.length_append] at hf
            omega
          have hfr : (renderCList (.cons w t)).length + 1 < f := by
            simp only [renderCList, List.length_cons, List.length_append] at hf ⊢
            omega
          have harg : renderCList (.cons v (.cons w t)) ++ (']' :: rest)
              = renderC v ++ (',' :: (renderCList (.cons w t) ++ (']' :: rest))) := by
            simp [renderCList, List.append_assoc]
          have hval := rt_val v f (',' :: (renderCList (.cons w t) ++ (']' :: rest)))
            hv hfv rfl
          have hrec := rt_items w t f rest hws.1 hws.2 hfr
          rw [harg]
          simp only [parseItems]
          rw [hval]
          simp [skipWs_comma, hrec]
termination_by v es _ _ _ _ _ => sizeOf v + sizeOf es
theorem rt_fields : ∀ (k : String) (v : JsValue) (fs : JsFields) (fuel : Nat)
    (rest : List Char),
    plainVal v = true → plainFields fs = true →
    (renderCFields (.cons k v fs)).length + 1 < fuel →
    parseFields fuel (renderCFields (.cons k v fs) ++ (rbr :: rest))
      = some (.cons k v fs, rest)
  | k, v, .nil, fuel, rest, hv, _, hf => by
      cases fuel with
      | zero => omega
      | succ f =>
          have hfv : (renderC v).length < f := by
            simp only [renderCFields, renderStr, List.length_cons,
              List.length_append] at hf
            omega
          have hval := rt_val v f (rbr :: rest) hv hfv rfl
          have harg : renderCFields (.cons k v .nil) ++ (rbr :: rest)
              = '"' :: (escapeChars k.data ++ ('"' :: (':' :: (renderC v ++ (rbr :: rest))))) := by
            simp [renderCFields, renderStr, List.append_assoc]
          rw [harg]
          simp only [parseFields]
          simp [skipWs_quote, parseStrBody_escapeChars, skipWs_colon, hval,
            skipWs_rbrace, show rbr ≠ ',' from by decide]
  | k, v, .cons k2 v2 t, fuel, rest, hv, hfs, hf => by
      have hps : plainVal v2 = true ∧ plainFields t = true := by
        simpa [plainFields] using hfs
      cases fuel with
      | zero => omega
      | succ f =>
          have hfv : (renderC v).length < f := by
            simp only [renderCFields, renderStr, List.length_cons,
              List.length_append] at hf
            omega
          have hfr : (renderCFields (.cons k2 v2 t)).length + 1 < f := by
            simp only [renderCFields, renderStr, List.length_cons,
              List.length_append] at hf ⊢
            omega
          have hval := rt_val v f
            (',' :: (renderCFields (.cons k2 v2 t) ++ (rbr :: rest))) hv hfv rfl
          have hrec := rt_fields k2 v2 t f rest hps.1 hps.2 hfr
          have harg : renderCFields (.cons k v (.cons k2 v2 t)) ++ (rbr :: rest)
              = '"' :: (escapeChars k.data ++ ('"' :: (':' :: (renderC v ++
                  (',' :: (renderCFields (.cons k2 v2 t) ++ (rbr :: rest))))))) := by
            simp [renderCFields, renderStr, List.append_assoc]
          rw [harg]
          simp only [parseFields]
          simp [skipWs_quote, parseStrBody_escapeChars, skipWs_colon, hval,
            skipWs_comma, hrec]
termination_by k v fs _ _ _ _ _ => sizeOf v + sizeOf fs
end

/-- C9: for every level, message, timestamp and JSON-representable context
(no `SensitiveValue` wrappers, objects with the duplicate-free keys every
JavaScript object has, and — a fidelity bound of the ordered-list object
model — no array-index-shaped top-level key, since JavaScript enumerates
such keys first while this model keeps insertion order), parsing
`JsonFormatter.format(level, msg, ts, ctx)` back as JSON yields exactly the
object `{level, message: msg, timestamp: ts, ...ctx}`, the context spread
last with colliding keys overwriting the fixed fields in place
(`mergedObject` is that spread). -/
theorem C9_json_roundtrip (level message timestamp : String) (ctx : JsFields)
    (hplain : plainFields ctx = true) (_hidx : noIndexKeys ctx = true) :
    jsonParse (jsonFormat level message timestamp ctx)
      = some (.obj (mergedObject level message timestamp ctx)) := by
  have hbase : nodupKeys (jsFieldsOf
      [ ("level", JsValue.str level), ("message", JsValue.str message)
      , ("timestamp", JsValue.str timestamp) ]) = true := rfl
  have hbasep : plainFields (jsFieldsOf
      [ ("level", JsValue.str level), ("message", JsValue.str message)
      , ("timestamp", JsValue.str timestamp) ]) = true := rfl
  have hnodup : nodupKeys (mergedObject level message timestamp ctx) = true :=
    nodupKeys_jsSpread ctx _ hbase
  have hplainM : plainFields (mergedObject level message timestamp ctx) = true :=
    plainFields_jsSpread ctx _ hbasep hplain
  have hPV : plainVal (.obj (mergedObject level message timestamp ctx)) = true := by
    simp [plainVal, hnodup, hplainM]
  have hv := rt_val (.obj (mergedObject level message timestamp ctx))
    ((renderC (.obj (mergedObject level message timestamp ctx))).length + 1) []
    hPV (by omega) rfl
  rw [List.append_nil] at hv
  show (match parseVal
      ((renderC (.obj (mergedObject level message timestamp ctx))).length + 1)
      (renderC (.obj (mergedObject level message timestamp ctx))) with
    | some (v, r) => if (skipWs r).isEmpty then some v else none
    | none => none)
    = some (.obj (mergedObject level message timestamp ctx))
  rw [hv]
  simp [skipWs]

/-- C9 witness: the round-trip applied to a concrete context that also
exercises the override clause (a context key named `level`). -/
theorem C9_json_roundtrip_witness :
    jsonParse (jsonFormat "info" "hello" "2023-01-01T12:00:00.000Z"
        (jsFieldsOf [("level", .str "override"), ("n", .num (-42))]))
      = some (.obj (mergedObject "info" "hello" "2023-01-01T12:00:00.000Z"
          (jsFieldsOf [("level", .str "override"), ("n", .num (-42))]))) :=
  C9_json_roundtrip "info" "hello" "2023-01-01T12:00:00.000Z"
    (jsFieldsOf [("level", .str "override"), ("n", .num (-42))])
    (by decide) (by decide)

end RdLogger
